import Mathlib

/-!
# gbloom: a Bloom filter over an arbitrary-precision integer

Shallow embedding of `gbloom.go` and `hasher.go`.

* A Go `byte` is `Fin 256`; a `[]byte` is a `List Byte`.
* A Go `int` is a 64-bit two's-complement integer (amd64 / arm64): it is an
  `Int` and every arithmetic result that could leave the range goes through
  `wrapInt`.
* A `*big.Int` is an `Int`; the methods of `math/big` the filter calls are
  modelled from their documentation (`bigSetBit`, `bigBit`, `bigBytes`,
  `bigSetBytes`, `bigSet`).
* A Go run-time panic (negative bit index, index out of range, integer
  division by zero) is `none`.
* The receiver is mutated in place in Go; here every mutating method returns
  the new filter value.
-/

namespace Gbloom

/-! ## Machine integers and bytes -/

/-- A Go `byte`. -/
abbrev Byte := Fin 256

/-- Two's-complement wrap-around of a Go `int` (64 bits). -/
def wrapInt (x : Int) : Int := (x + 2 ^ 63) % 2 ^ 64 - 2 ^ 63

/-- Go `x << n` on `int`. -/
def shl (x : Int) (n : Nat) : Int := wrapInt (x * 2 ^ n)

/-- Go `x | y` on `int` (two's-complement bitwise or). -/
def bor (x y : Int) : Int := Int.lor x y

/-- Go `-x` on `int`. -/
def neg (x : Int) : Int := wrapInt (-x)

/-! ## The part of `math/big` the filter uses -/

/-- Little-endian base-256 digits of `n`; `fuel` bounds the number of digits
produced (`fuel = n` is always enough). -/
def bytesLE : Nat → Nat → List Byte
  | 0, _ => []
  | fuel + 1, n =>
    if n = 0 then [] else (⟨n % 256, Nat.mod_lt n (by decide)⟩ : Byte) :: bytesLE fuel (n / 256)

/-- Model of `(*big.Int).Bytes`: the absolute value as a big-endian byte slice
without leading zero bytes. -/
def bigBytes (x : Int) : List Byte := (bytesLE x.natAbs x.natAbs).reverse

/-- Model of `(*big.Int).SetBytes`: the buffer read as a big-endian unsigned
integer. -/
def bigSetBytes (buf : List Byte) : Int :=
  ((buf.foldl (fun acc c => acc * 256 + c.val) 0 : Nat) : Int)

/-- Model of `(*big.Int).Set`. -/
def bigSet (x : Int) : Int := x

/-- Model of `(*big.Int).SetBit(x, i, b)`: `x` with bit `i` set to `b`
(two's-complement for a negative `x`); panics when `i < 0` or `b` is neither
`0` nor `1`. -/
def bigSetBit (x : Int) (i : Int) (b : Nat) : Option Int :=
  if i < 0 then none
  else if b = 1 then some (Int.lor x (2 ^ i.toNat))
  else if b = 0 then some (Int.land x (Int.lnot (2 ^ i.toNat)))
  else none

/-- Model of `(*big.Int).Bit(i)`: bit `i` of `x` (two's-complement for a
negative `x`); panics when `i < 0`. -/
def bigBit (x : Int) (i : Int) : Option Nat :=
  if i < 0 then none
  else some (if Int.testBit x i.toNat then 1 else 0)

/-! ## `hasher.go` -/

/-- The interface `Hasher`: `BuildHashes` as a function of the payload. -/
structure Hasher (α ε : Type) where
  BuildHashes : α → Except ε (List (List Byte))

/-- Go `NewHasher`. -/
def NewHasher {α ε : Type} (f : α → Except ε (List (List Byte))) : Hasher α ε :=
  ⟨f⟩

/-! ## `gbloom.go` -/

/-- Go `defaultMaxBits`. -/
def defaultMaxBits : Int := 100000007

/-- The values of Go's `error` that `Add` and `Test` can return: the two
errors made by `hash` with `errors.New`, and an error of the hasher. -/
inductive Error (ε : Type) where
  | hasherNotSet : Error ε
  | emptyResult : Error ε
  | ofHasher : ε → Error ε
  deriving DecidableEq, Repr

/-- Go `BloomFilter`. -/
structure BloomFilter (α ε : Type) where
  value : Int
  maxBits : Int
  hasher : Option (Hasher α ε)

variable {α ε : Type}

/-- Go `initialize`. -/
def initializeFilter (maxBits : Int) (hasher : Option (Hasher α ε)) : BloomFilter α ε :=
  let maxBits := if maxBits = 0 then defaultMaxBits else maxBits
  { value := 0, maxBits := maxBits, hasher := hasher }

/-- Go `New`. -/
def New (maxBits : Int) (hasher : Option (Hasher α ε)) : BloomFilter α ε :=
  initializeFilter maxBits hasher

/-- Go `truncateHash`. `make([]byte, -p, size)` cannot panic: `-p ≤ size`
because `len(hash) ≥ 0`. -/
def truncateHash (size : Int) (hash : List Byte) : List Byte :=
  let p : Int := (hash.length : Int) - size
  if p > 0 then hash.drop p.toNat
  else if p < 0 then List.replicate (-p).toNat (0 : Byte) ++ hash
  else hash

/-- Go `bitIndex`. `none` is a panic: an index out of range in `hash[k]`, or
the integer division by zero of `v % b.maxBits`. -/
def bitIndex (b : BloomFilter α ε) (hash : List Byte) : Option Int :=
  let hash := truncateHash 4 hash
  match hash[0]?, hash[1]?, hash[2]?, hash[3]? with
  | some h0, some h1, some h2, some h3 =>
    let v : Int := 0
    let v := bor v (h0.val : Int)
    let v := bor v (shl (h1.val : Int) 8)
    let v := bor v (shl (h2.val : Int) 16)
    let v := bor v (shl (h3.val : Int) 24)
    let v := if v < 0 then neg v else v
    if b.maxBits = 0 then none else some (Int.tmod v b.maxBits)
  | _, _, _, _ => none

/-- Go `AddHash`. -/
def AddHash (b : BloomFilter α ε) (hash : List Byte) : Option (BloomFilter α ε) :=
  match bitIndex b hash with
  | none => none
  | some i =>
    match bigSetBit b.value i 1 with
    | none => none
    | some v => some { b with value := v }

/-- Go `AddHashes`: the loop calls `AddHash` on every hash in order. -/
def AddHashes (b : BloomFilter α ε) : List (List Byte) → Option (BloomFilter α ε)
  | [] => some b
  | hash :: hashes =>
    match AddHash b hash with
    | none => none
    | some b1 => AddHashes b1 hashes

/-- Go `Bytes`. -/
def Bytes (b : BloomFilter α ε) : List Byte := bigBytes b.value

/-- Go `MaxBits`. -/
def MaxBits (b : BloomFilter α ε) : Int := b.maxBits

/-- Go `SetBytes`. -/
def SetBytes (b : BloomFilter α ε) (bytes : List Byte) : BloomFilter α ε :=
  if bytes.length = 0 then b
  else { b with value := bigSetBytes bytes }

/-- Go `SetInt`; a nil `*big.Int` is `none`. -/
def SetInt (b : BloomFilter α ε) (value : Option Int) : BloomFilter α ε :=
  let value := match value with
    | none => (0 : Int)
    | some x => x
  { b with value := bigSet value }

/-- Go `NewFromBytes`. -/
def NewFromBytes (maxBits : Int) (hasher : Option (Hasher α ε)) (bytes : List Byte) :
    BloomFilter α ε :=
  SetBytes (initializeFilter maxBits hasher) bytes

/-- Go `NewFromInt`. -/
def NewFromInt (maxBits : Int) (hasher : Option (Hasher α ε)) (value : Option Int) :
    BloomFilter α ε :=
  SetInt (initializeFilter maxBits hasher) value

/-- Go `TestHash`. -/
def TestHash (b : BloomFilter α ε) (hash : List Byte) : Option Bool :=
  match bitIndex b hash with
  | none => none
  | some i =>
    match bigBit b.value i with
    | none => none
    | some bit => some (decide (bit > 0))

/-- Go `TestHashes`: returns `false` at the first hash that is not set. -/
def TestHashes (b : BloomFilter α ε) : List (List Byte) → Option Bool
  | [] => some true
  | hash :: hashes =>
    match TestHash b hash with
    | none => none
    | some false => some false
    | some true => TestHashes b hashes

/-- Go `hash` (the method of `BloomFilter`). -/
def hash (b : BloomFilter α ε) (v : α) : Except (Error ε) (List (List Byte)) :=
  match b.hasher with
  | none => Except.error Error.hasherNotSet
  | some hasher =>
    match hasher.BuildHashes v with
    | Except.error e => Except.error (Error.ofHasher e)
    | Except.ok hashes =>
      if hashes.length = 0 then Except.error Error.emptyResult
      else Except.ok hashes

/-- Go `Add`: the new filter and the returned error (`none` is Go's `nil`). -/
def Add (b : BloomFilter α ε) (v : α) : Option (BloomFilter α ε × Option (Error ε)) :=
  match hash b v with
  | Except.error err => some (b, some err)
  | Except.ok hashes =>
    match hashes with
    | [h] =>
      match AddHash b h with
      | none => none
      | some b1 => some (b1, none)
    | _ =>
      match AddHashes b hashes with
      | none => none
      | some b1 => some (b1, none)

/-- Go `Test`: the returned boolean and error (`none` is Go's `nil`). -/
def Test (b : BloomFilter α ε) (v : α) : Option (Bool × Option (Error ε)) :=
  match hash b v with
  | Except.error err => some (true, some err)
  | Except.ok hashes =>
    match hashes with
    | [h] =>
      match TestHash b h with
      | none => none
      | some r => some (r, none)
    | _ =>
      match TestHashes b hashes with
      | none => none
      | some r => some (r, none)

/-! ## Sequences of calls -/

/-- A call that adds to the filter: `Add(v)`, `AddHash(hash)` or
`AddHashes(hashes...)`. -/
inductive Grow (α : Type) where
  | add : α → Grow α
  | addHash : List Byte → Grow α
  | addHashes : List (List Byte) → Grow α

/-- The filter after one successful call: the call returns (no panic) and,
for `Add`, returns a nil error. `none` otherwise. -/
def growOk (b : BloomFilter α ε) : Grow α → Option (BloomFilter α ε)
  | Grow.add v =>
    match Add b v with
    | some (b1, none) => some b1
    | _ => none
  | Grow.addHash hash => AddHash b hash
  | Grow.addHashes hashes => AddHashes b hashes

/-- The filter after a sequence of successful calls, in order. -/
def growAllOk (b : BloomFilter α ε) : List (Grow α) → Option (BloomFilter α ε)
  | [] => some b
  | c :: cs =>
    match growOk b c with
    | none => none
    | some b1 => growAllOk b1 cs

/-- A hasher that returns the single hash `05 00 00 00` for every payload. -/
def fiveHasher : Hasher Unit Unit := NewHasher (fun _ => Except.ok [[0x05, 0x00, 0x00, 0x00]])

/-- A state-changing call: `Add(v)`, `AddHash(hash)`, `AddHashes(hashes...)`,
`SetBytes(bytes)` or `SetInt(value)`. -/
inductive Call (α : Type) where
  | add : α → Call α
  | addHash : List Byte → Call α
  | addHashes : List (List Byte) → Call α
  | setBytes : List Byte → Call α
  | setInt : Option Int → Call α

/-- The filter after one call, whether `Add` returns an error or not. `none`
when the call panics. -/
def applyCall (b : BloomFilter α ε) : Call α → Option (BloomFilter α ε)
  | Call.add v =>
    match Add b v with
    | none => none
    | some (b1, _) => some b1
  | Call.addHash hash => AddHash b hash
  | Call.addHashes hashes => AddHashes b hashes
  | Call.setBytes bytes => some (SetBytes b bytes)
  | Call.setInt value => some (SetInt b value)

/-- The filter after a sequence of calls, in order. -/
def applyCalls (b : BloomFilter α ε) : List (Call α) → Option (BloomFilter α ε)
  | [] => some b
  | c :: cs =>
    match applyCall b c with
    | none => none
    | some b1 => applyCalls b1 cs

/-- The call loads no bit at or above `maxBits`: the integer a `SetBytes`
buffer or a `SetInt` value stands for lies in `[0, 2^maxBits)`. Calls that
load nothing satisfy it. -/
def loadsBelow (maxBits : Int) : Call α → Bool
  | Call.setBytes bytes => decide (bigSetBytes bytes < 2 ^ maxBits.toNat)
  | Call.setInt (some x) => decide (0 ≤ x ∧ x < 2 ^ maxBits.toNat)
  | _ => true

/-! ## Specification-side definitions -/

/-- The value `b0 + b1 * 2^8 + b2 * 2^16 + b3 * 2^24` assembled from the first
four bytes of `l`, byte 0 least significant. -/
def leValue (l : List Byte) : Int :=
  ((l.getD 0 0).val : Int) + ((l.getD 1 0).val : Int) * 2 ^ 8 +
    ((l.getD 2 0).val : Int) * 2 ^ 16 + ((l.getD 3 0).val : Int) * 2 ^ 24

/-- The specification's reading of the four bytes: the 32-bit SIGNED integer
with the bit pattern of `leValue l`. -/
def specSigned32 (l : List Byte) : Int :=
  if leValue l < 2 ^ 31 then leValue l else leValue l - 2 ^ 32

/-- The bit position a hash is mapped to, as a natural number: `leValue` of
the normalized hash, reduced by Go's `%`. -/
def slot (maxBits : Int) (hash : List Byte) : Nat :=
  (Int.tmod (leValue (truncateHash 4 hash)) maxBits).toNat

/-- Little-endian value of a byte list. -/
def leNat : List Byte → Nat
  | [] => 0
  | c :: cs => c.val + 256 * leNat cs

theorem wrapInt_of_range (x : Int) (h0 : -(2 ^ 63) ≤ x) (h1 : x < 2 ^ 63) : wrapInt x = x := by
  unfold wrapInt
  norm_num at h0 h1 ⊢
  omega

theorem lor_disjoint (a c k : Nat) (h : a < 2 ^ k) :
    Int.lor (a : Int) ((c * 2 ^ k : Nat) : Int) = ((a + c * 2 ^ k : Nat) : Int) := by
  have e : a ||| c * 2 ^ k = a + c * 2 ^ k := by
    rw [Nat.or_comm, Nat.mul_comm c, ← Nat.mul_add_lt_is_or h, Nat.add_comm]
  show ((a ||| c * 2 ^ k : Nat) : Int) = _
  rw [e]

theorem length_truncateHash (hash : List Byte) : (truncateHash 4 hash).length = 4 := by
  unfold truncateHash
  simp only []
  split_ifs with h1 h2
  · rw [List.length_drop]; omega
  · rw [List.length_append, List.length_replicate]; omega
  · omega

theorem truncateHash_cases (hash : List Byte) :
    ∃ b0 b1 b2 b3 : Byte, truncateHash 4 hash = [b0, b1, b2, b3] := by
  have h := length_truncateHash hash
  match e : truncateHash 4 hash, h with
  | [b0, b1, b2, b3], _ => exact ⟨b0, b1, b2, b3, rfl⟩

theorem assemble_eq (b0 b1 b2 b3 : Byte) :
    bor (bor (bor (bor 0 (b0.val : Int)) (shl (b1.val : Int) 8)) (shl (b2.val : Int) 16))
      (shl (b3.val : Int) 24) = leValue [b0, b1, b2, b3] := by
  have h0 := b0.isLt
  have h1 := b1.isLt
  have h2 := b2.isLt
  have h3 := b3.isLt
  have s1 : shl (b1.val : Int) 8 = ((b1.val * 2 ^ 8 : Nat) : Int) := by
    unfold shl; rw [wrapInt_of_range] <;> push_cast <;> omega
  have s2 : shl (b2.val : Int) 16 = ((b2.val * 2 ^ 16 : Nat) : Int) := by
    unfold shl; rw [wrapInt_of_range] <;> push_cast <;> omega
  have s3 : shl (b3.val : Int) 24 = ((b3.val * 2 ^ 24 : Nat) : Int) := by
    unfold shl; rw [wrapInt_of_range] <;> push_cast <;> omega
  have z : bor 0 (b0.val : Int) = ((b0.val : Nat) : Int) := by
    show ((0 ||| b0.val : Nat) : Int) = _
    simp
  rw [z, s1, s2, s3]
  unfold bor
  rw [lor_disjoint _ _ 8 (by omega), lor_disjoint _ _ 16 (by omega),
    lor_disjoint _ _ 24 (by omega)]
  simp [leValue]

theorem leValue_range (l : List Byte) : 0 ≤ leValue l ∧ leValue l < 2 ^ 32 := by
  have h0 := (l.getD 0 0).isLt
  have h1 := (l.getD 1 0).isLt
  have h2 := (l.getD 2 0).isLt
  have h3 := (l.getD 3 0).isLt
  unfold leValue
  constructor <;> omega

theorem bitIndex_eq (b : BloomFilter α ε) (hash : List Byte) (hm : b.maxBits ≠ 0) :
    bitIndex b hash = some (Int.tmod (leValue (truncateHash 4 hash)) b.maxBits) := by
  obtain ⟨b0, b1, b2, b3, e⟩ := truncateHash_cases hash
  unfold bitIndex
  simp only [e, List.getElem?_cons_zero, List.getElem?_cons_succ]
  rw [assemble_eq]
  have r := leValue_range [b0, b1, b2, b3]
  rw [if_neg hm, if_neg (not_lt.mpr r.1)]

theorem tmod_leValue_eq_slot (m : Int) (hash : List Byte) :
    Int.tmod (leValue (truncateHash 4 hash)) m = (slot m hash : Int) := by
  unfold slot
  rw [Int.toNat_of_nonneg]
  exact Int.tmod_nonneg _ (leValue_range _).1

theorem bitIndex_eq_slot (b : BloomFilter α ε) (hash : List Byte) (hm : b.maxBits ≠ 0) :
    bitIndex b hash = some (slot b.maxBits hash : Int) := by
  rw [bitIndex_eq b hash hm, tmod_leValue_eq_slot]

theorem testBit_two_pow (k i : Nat) : Int.testBit ((2 : Int) ^ k) i = decide (k = i) := by
  have e : (2 : Int) ^ k = ((2 ^ k : Nat) : Int) := by push_cast; rfl
  rw [e]
  show Nat.testBit (2 ^ k) i = _
  exact Nat.testBit_two_pow

theorem AddHash_eq (b : BloomFilter α ε) (hash : List Byte) (hm : b.maxBits ≠ 0) :
    AddHash b hash = some { b with value := Int.lor b.value (2 ^ slot b.maxBits hash) } := by
  unfold AddHash
  rw [bitIndex_eq_slot b hash hm]
  have h0 : ¬ ((slot b.maxBits hash : Int) < 0) := by omega
  simp only [bigSetBit, Int.toNat_ofNat, if_neg h0, if_true]

theorem TestHash_eq (b : BloomFilter α ε) (hash : List Byte) (hm : b.maxBits ≠ 0) :
    TestHash b hash = some (Int.testBit b.value (slot b.maxBits hash)) := by
  unfold TestHash
  rw [bitIndex_eq_slot b hash hm]
  simp only [bigBit, Int.toNat_ofNat]
  have h0 : ¬ ((slot b.maxBits hash : Int) < 0) := by omega
  rw [if_neg h0]
  by_cases hb : Int.testBit b.value (slot b.maxBits hash) = true
  · simp [hb]
  · simp [hb]

theorem New_maxBits_ne_zero (maxBits : Int) (hasher : Option (Hasher α ε)) :
    (New maxBits hasher).maxBits ≠ 0 := by
  unfold New initializeFilter
  simp only []
  split_ifs with h
  · decide
  · exact h

/-- The bit array after adding the hashes `hs` to the bit array `v`. -/
theorem AddHashes_eq (hs : List (List Byte)) (b : BloomFilter α ε) (hm : b.maxBits ≠ 0) :
    AddHashes b hs = some { b with
      value := hs.foldl (fun v h => Int.lor v (2 ^ slot b.maxBits h)) b.value } := by
  induction hs generalizing b with
  | nil => rfl
  | cons h hs ih =>
    unfold AddHashes
    rw [AddHash_eq b h hm]
    simp only []
    rw [ih { b with value := Int.lor b.value (2 ^ slot b.maxBits h) } hm]
    rfl

theorem testBit_foldl_lor (m : Int) (hs : List (List Byte)) (v : Int) (i : Nat) :
    Int.testBit (hs.foldl (fun v h => Int.lor v (2 ^ slot m h)) v) i =
      (Int.testBit v i || hs.any (fun h => decide (slot m h = i))) := by
  induction hs generalizing v with
  | nil => simp
  | cons h hs ih =>
    rw [List.foldl_cons, ih, Int.testBit_lor, testBit_two_pow, List.any_cons, Bool.or_assoc]

theorem truncateHash_of_length (hash : List Byte) (h : hash.length = 4) :
    truncateHash 4 hash = hash := by
  unfold truncateHash
  simp only []
  rw [if_neg (by omega), if_neg (by omega)]

theorem truncateHash_idem (hash : List Byte) :
    truncateHash 4 (truncateHash 4 hash) = truncateHash 4 hash :=
  truncateHash_of_length _ (length_truncateHash hash)

theorem bitIndex_congr (b : BloomFilter α ε) (h1 h2 : List Byte)
    (e : truncateHash 4 h1 = truncateHash 4 h2) : bitIndex b h1 = bitIndex b h2 := by
  unfold bitIndex
  simp only [e]

theorem testBit_AddHashes (hs : List (List Byte)) (b f : BloomFilter α ε) (hm : b.maxBits ≠ 0)
    (e : AddHashes b hs = some f) (i : Nat) :
    Int.testBit f.value i =
      (Int.testBit b.value i || hs.any (fun h => decide (slot b.maxBits h = i))) := by
  rw [AddHashes_eq hs b hm] at e
  cases e
  exact testBit_foldl_lor _ _ _ _

theorem AddHashes_spec (hs : List (List Byte)) (b : BloomFilter α ε) (hm : b.maxBits ≠ 0) :
    ∃ f : BloomFilter α ε, AddHashes b hs = some f ∧ f.maxBits = b.maxBits ∧
      f.hasher = b.hasher ∧
      f.value = hs.foldl (fun v h => Int.lor v (2 ^ slot b.maxBits h)) b.value :=
  ⟨_, AddHashes_eq hs b hm, rfl, rfl, rfl⟩

/-- C1: no false negatives at the hash level. For every `maxBits` (in
particular every `maxBits ≥ 0`), whatever hashes are added before and after
`h` to a filter made by `New(maxBits, nil)`, the sequence of `AddHash` calls
returns a filter, and `TestHash(h)` on it returns `true`. -/
theorem no_false_negative_hash (maxBits : Int) (before after : List (List Byte))
    (h : List Byte) :
    ∃ f : BloomFilter α ε,
      AddHashes (New maxBits none) (before ++ h :: after) = some f ∧
        TestHash f h = some true := by
  have hm := New_maxBits_ne_zero maxBits (none : Option (Hasher α ε))
  obtain ⟨f, e, hmb, _, hv⟩ := AddHashes_spec (before ++ h :: after) _ hm
  refine ⟨f, e, ?_⟩
  rw [TestHash_eq f h (by rw [hmb]; exact hm), hv, testBit_foldl_lor, hmb]
  simp

theorem testBit_zero_left (i : Nat) : Int.testBit 0 i = false := by
  show Nat.testBit 0 i = false
  exact Nat.zero_testBit i

/-- C4, the scenario as the specification states it, fails: on `New(16, nil)`
the hash `00 00 00 05` is mapped to bit 0, not bit 5, so there is no filter
returned by `AddHash` with exactly bit 5 set, `TestHash(00 00 00 06)` false
and `Bytes()` equal to `[0x20]`. -/
theorem scenario_as_stated_fails :
    ¬ ∃ f : BloomFilter Unit Unit,
      AddHash (New 16 none) [0x00, 0x00, 0x00, 0x05] = some f ∧
        (∀ i : Nat, Int.testBit f.value i = decide (i = 5)) ∧
        TestHash f [0x00, 0x00, 0x00, 0x05] = some true ∧
        TestHash f [0x00, 0x00, 0x00, 0x06] = some false ∧
        Bytes f = [0x20] := by
  rintro ⟨f, e, -, -, h6, -⟩
  rw [AddHash_eq _ _ (by decide)] at e
  cases e
  revert h6
  decide

/-- C4 as the code does it. On `New(16, nil)`, `AddHash(00 00 00 05)` sets bit
0 and only that bit (the bytes are assembled with byte 0 least significant, so
the value is `5 * 2^24`, which is `0` modulo 16); `TestHash(00 00 00 05)` is
true, `TestHash(00 00 00 06)` is true as well (the same bit), and `Bytes()` is
`[0x01]`. With the bytes in the order the code reads them, `AddHash(05 00 00
00)` sets bit 5 and only that bit, `TestHash(05 00 00 00)` is true,
`TestHash(06 00 00 00)` is false and `Bytes()` is the one-byte buffer
`[0x20]`. -/
theorem scenario_little_endian :
    (∃ f : BloomFilter Unit Unit,
      AddHash (New 16 none) [0x00, 0x00, 0x00, 0x05] = some f ∧
        (∀ i : Nat, Int.testBit f.value i = decide (i = 0)) ∧
        TestHash f [0x00, 0x00, 0x00, 0x05] = some true ∧
        TestHash f [0x00, 0x00, 0x00, 0x06] = some true ∧
        Bytes f = [0x01]) ∧
    (∃ g : BloomFilter Unit Unit,
      AddHash (New 16 none) [0x05, 0x00, 0x00, 0x00] = some g ∧
        (∀ i : Nat, Int.testBit g.value i = decide (i = 5)) ∧
        TestHash g [0x05, 0x00, 0x00, 0x00] = some true ∧
        TestHash g [0x06, 0x00, 0x00, 0x00] = some false ∧
        Bytes g = [0x20]) := by
  constructor
  · refine ⟨_, AddHash_eq _ _ (by decide), ?_, by decide, by decide, by decide⟩
    intro i
    show Int.testBit (Int.lor 0 (2 ^ slot 16 [0x00, 0x00, 0x00, 0x05])) i = _
    rw [Int.testBit_lor, testBit_two_pow, show slot 16 [0x00, 0x00, 0x00, 0x05] = 0 by decide]
    rw [testBit_zero_left, Bool.false_or]
    exact decide_eq_decide.mpr eq_comm
  · refine ⟨_, AddHash_eq _ _ (by decide), ?_, by decide, by decide, by decide⟩
    intro i
    show Int.testBit (Int.lor 0 (2 ^ slot 16 [0x05, 0x00, 0x00, 0x00])) i = _
    rw [Int.testBit_lor, testBit_two_pow, show slot 16 [0x05, 0x00, 0x00, 0x00] = 5 by decide]
    rw [testBit_zero_left, Bool.false_or]
    exact decide_eq_decide.mpr eq_comm

theorem New_maxBits_pos (maxBits : Int) (h : 0 ≤ maxBits) (hasher : Option (Hasher α ε)) :
    0 < (New maxBits hasher).maxBits := by
  unfold New initializeFilter
  simp only []
  split_ifs with h0
  · decide
  · omega

/-- C5: bit-index range. For a filter whose capacity is that of a filter
constructed with `maxBits ≥ 0` (`0` being replaced by `100000007`) and a hash
of any length, `bitIndex` returns an index `i` with `0 ≤ i < MaxBits()`; every
filter with the same `maxBits` gives the same index for that hash; and neither
`AddHash` nor `TestHash` panics, so `SetBit` and `Bit` never receive a
negative index. -/
theorem bitIndex_range (maxBits : Int) (hmb : 0 ≤ maxBits) (hasher : Option (Hasher α ε))
    (b : BloomFilter α ε) (hb : b.maxBits = (New maxBits hasher).maxBits)
    (hash : List Byte) :
    (maxBits = 0 → MaxBits b = 100000007) ∧
    ∃ i : Int, bitIndex b hash = some i ∧ 0 ≤ i ∧ i < MaxBits b ∧
      (∀ c : BloomFilter α ε, c.maxBits = b.maxBits → bitIndex c hash = some i) ∧
      (∃ b1, AddHash b hash = some b1 ∧ bigSetBit b.value i 1 = some b1.value) ∧
      (∃ r, TestHash b hash = some r ∧ (bigBit b.value i).isSome = true) := by
  have hpos : 0 < b.maxBits := hb ▸ New_maxBits_pos maxBits hmb hasher
  have hne : b.maxBits ≠ 0 := by omega
  refine ⟨?_, Int.tmod (leValue (truncateHash 4 hash)) b.maxBits, bitIndex_eq b hash hne,
    Int.tmod_nonneg _ (leValue_range _).1, Int.tmod_lt_of_pos _ hpos, ?_, ?_, ?_⟩
  · intro h0
    rw [MaxBits, hb, h0]
    rfl
  · intro c hc
    rw [bitIndex_eq c hash (by omega), hc]
  · refine ⟨_, AddHash_eq b hash hne, ?_⟩
    rw [tmod_leValue_eq_slot]
    have h0 : ¬ ((slot b.maxBits hash : Int) < 0) := by omega
    simp only [bigSetBit, Int.toNat_ofNat, if_neg h0, if_true]
  · refine ⟨_, TestHash_eq b hash hne, ?_⟩
    rw [tmod_leValue_eq_slot]
    have h0 : ¬ ((slot b.maxBits hash : Int) < 0) := by omega
    simp only [bigBit, if_neg h0, Option.isSome_some]

/-- C5 at a concrete input: the default capacity and the empty hash. -/
theorem bitIndex_range_witness :
    (0 : Int) ≤ 0 ∧ (New 0 none : BloomFilter Unit Unit).maxBits =
      (New 0 (none : Option (Hasher Unit Unit))).maxBits ∧
    ((0 : Int) = 0 → MaxBits (New 0 none : BloomFilter Unit Unit) = 100000007) ∧
    ∃ i : Int, bitIndex (New 0 none : BloomFilter Unit Unit) [] = some i ∧ 0 ≤ i ∧
      i < MaxBits (New 0 none : BloomFilter Unit Unit) ∧
      (∀ c : BloomFilter Unit Unit, c.maxBits = (New 0 none : BloomFilter Unit Unit).maxBits →
        bitIndex c [] = some i) ∧
      (∃ b1, AddHash (New 0 none : BloomFilter Unit Unit) [] = some b1 ∧
        bigSetBit (New 0 none : BloomFilter Unit Unit).value i 1 = some b1.value) ∧
      (∃ r, TestHash (New 0 none : BloomFilter Unit Unit) [] = some r ∧
        (bigBit (New 0 none : BloomFilter Unit Unit).value i).isSome = true) :=
  ⟨by decide, rfl, bitIndex_range 0 (by decide) none (New 0 none) rfl []⟩

/-- C6, the code at a failing input. With `maxBits = 16` the hash
`01 00 00 80`, whose normalized form is not `00 00 00 80`, has the signed
32-bit reading `-(2^31 - 1)`, whose absolute value is `15` modulo 16: that is
the index the bit-index algorithm asks for. `bitIndex` returns `1`: with a
64-bit `int` the assembled value is `2^31 + 1`, the test `v < 0` of
`if v < 0 { v = -v }` is false, and the negation the code was written to do
is not done. -/
theorem signed_reading_fails :
    0 < (New 16 none : BloomFilter Unit Unit).maxBits ∧
    truncateHash 4 [0x01, 0x00, 0x00, 0x80] ≠ [0x00, 0x00, 0x00, 0x80] ∧
    specSigned32 (truncateHash 4 [0x01, 0x00, 0x00, 0x80]) = -(2 ^ 31 - 1) ∧
    bitIndex (New 16 none : BloomFilter Unit Unit) [0x01, 0x00, 0x00, 0x80] = some 1 ∧
    bitIndex (New 16 none : BloomFilter Unit Unit) [0x01, 0x00, 0x00, 0x80] ≠
      some (((specSigned32 (truncateHash 4 [0x01, 0x00, 0x00, 0x80])).natAbs : Int) %
        (New 16 none : BloomFilter Unit Unit).maxBits) := by
  decide

theorem truncateHash_drop (hash : List Byte) (h : 4 < hash.length) :
    truncateHash 4 hash = hash.drop (hash.length - 4) := by
  unfold truncateHash
  simp only []
  rw [if_pos (by omega)]
  congr 1
  omega

theorem truncateHash_pad (hash : List Byte) (h : hash.length < 4) :
    truncateHash 4 hash = List.replicate (4 - hash.length) (0 : Byte) ++ hash := by
  unfold truncateHash
  simp only []
  rw [if_neg (by omega), if_pos (by omega)]
  congr 2
  omega

/-- C7: truncation correctness. `truncateHash(4, hash)` always has exactly 4
bytes; for a hash longer than 4 bytes it is the last 4 bytes and `bitIndex` of
the hash is `bitIndex` of its last 4 bytes, whatever the earlier bytes are; for
a hash of length `n < 4` it is `4 - n` zero bytes followed by the hash and
`bitIndex` agrees with `bitIndex` of that padded hash; and a hash of exactly 4
bytes is used unchanged. -/
theorem truncation_correct (b : BloomFilter α ε) (hash : List Byte) :
    (truncateHash 4 hash).length = 4 ∧
    (4 < hash.length →
      truncateHash 4 hash = hash.drop (hash.length - 4) ∧
      bitIndex b hash = bitIndex b (hash.drop (hash.length - 4)) ∧
      ∀ earlier : List Byte, earlier.length = hash.length - 4 →
        bitIndex b (earlier ++ hash.drop (hash.length - 4)) = bitIndex b hash) ∧
    (hash.length < 4 →
      truncateHash 4 hash = List.replicate (4 - hash.length) (0 : Byte) ++ hash ∧
      bitIndex b hash = bitIndex b (List.replicate (4 - hash.length) (0 : Byte) ++ hash)) ∧
    (hash.length = 4 → truncateHash 4 hash = hash) := by
  refine ⟨length_truncateHash hash, ?_, ?_, truncateHash_of_length hash⟩
  · intro h
    have e := truncateHash_drop hash h
    refine ⟨e, ?_, ?_⟩
    · apply bitIndex_congr
      rw [← e, truncateHash_idem]
    · intro earlier he
      apply bitIndex_congr
      have hl : 4 < (earlier ++ hash.drop (hash.length - 4)).length := by
        rw [List.length_append, List.length_drop]; omega
      rw [truncateHash_drop _ hl, e, List.length_append, List.length_drop,
        List.drop_append_eq_append_drop]
      have h1 : earlier.length + (hash.length - (hash.length - 4)) - 4 = earlier.length := by
        omega
      rw [h1]
      simp
  · intro h
    have e := truncateHash_pad hash h
    refine ⟨e, ?_⟩
    apply bitIndex_congr
    rw [← e, truncateHash_idem]

/-- C8: `SetBytes` with an empty (or nil) buffer is a no-op. Whatever the
filter state, the filter after `SetBytes([])` is the filter before: the bit
array and `maxBits` are unchanged, and `Bytes()` and every `TestHash` result
are the same before and after. -/
theorem SetBytes_empty (b : BloomFilter α ε) :
    SetBytes b [] = b ∧ (SetBytes b []).value = b.value ∧
      MaxBits (SetBytes b []) = MaxBits b ∧ Bytes (SetBytes b []) = Bytes b ∧
      ∀ hash : List Byte, TestHash (SetBytes b []) hash = TestHash b hash :=
  ⟨rfl, rfl, rfl, rfl, fun _ => rfl⟩

theorem bytesLE_zero (fuel : Nat) : bytesLE fuel 0 = [] := by
  cases fuel <;> simp [bytesLE]

theorem bytesLE_succ (fuel n : Nat) (h : n ≠ 0) :
    bytesLE (fuel + 1) n =
      (⟨n % 256, Nat.mod_lt n (by decide)⟩ : Byte) :: bytesLE fuel (n / 256) := by
  simp [bytesLE, h]

theorem div_le_fuel (fuel n : Nat) (h : n ≤ fuel + 1) (_h0 : n ≠ 0) : n / 256 ≤ fuel := by
  omega

theorem leNat_bytesLE (fuel n : Nat) (h : n ≤ fuel) : leNat (bytesLE fuel n) = n := by
  induction fuel generalizing n with
  | zero =>
    have : n = 0 := by omega
    subst this
    rfl
  | succ fuel ih =>
    by_cases h0 : n = 0
    · subst h0; rw [bytesLE_zero]; rfl
    · rw [bytesLE_succ _ _ h0, leNat, ih _ (div_le_fuel fuel n h h0)]
      show n % 256 + 256 * (n / 256) = n
      omega

theorem bytesLE_eq_nil (fuel n : Nat) (h : n ≤ fuel) : bytesLE fuel n = [] ↔ n = 0 := by
  constructor
  · intro e
    have := leNat_bytesLE fuel n h
    rw [e] at this
    exact this.symm
  · intro e
    rw [e, bytesLE_zero]

theorem getLast_bytesLE (fuel n : Nat) (h : n ≤ fuel) :
    (bytesLE fuel n).getLast? ≠ some 0 := by
  induction fuel generalizing n with
  | zero => simp [bytesLE]
  | succ fuel ih =>
    by_cases h0 : n = 0
    · subst h0; rw [bytesLE_zero]; simp
    · rw [bytesLE_succ _ _ h0]
      have hd := div_le_fuel fuel n h h0
      by_cases h1 : n / 256 = 0
      · rw [h1, bytesLE_zero]
        simp only [List.getLast?_singleton, ne_eq, Option.some.injEq]
        intro e
        have := congrArg Fin.val e
        simp at this
        omega
      · have hne : bytesLE fuel (n / 256) ≠ [] := fun e => h1 ((bytesLE_eq_nil _ _ hd).1 e)
        obtain ⟨c, cs, hc⟩ := List.exists_cons_of_ne_nil hne
        rw [hc, List.getLast?_cons_cons, ← hc]
        exact ih _ hd

theorem bytesLE_leNat (l : List Byte) (fuel : Nat) (hl : l.getLast? ≠ some 0)
    (h : leNat l ≤ fuel) : bytesLE fuel (leNat l) = l := by
  induction l generalizing fuel with
  | nil => exact bytesLE_zero fuel
  | cons c cs ih =>
    have hc := c.isLt
    have hcs : cs.getLast? ≠ some 0 := by
      cases cs with
      | nil => simp
      | cons d ds => rwa [List.getLast?_cons_cons] at hl
    have hn : leNat (c :: cs) ≠ 0 := by
      intro e
      rw [leNat] at e
      have e1 : leNat cs = 0 := by omega
      have e2 : c.val = 0 := by omega
      have := ih (leNat cs) hcs (le_refl _)
      rw [e1, bytesLE_zero] at this
      rw [← this] at hl
      apply hl
      simp only [List.getLast?_singleton, Option.some.injEq]
      exact Fin.ext e2
    cases fuel with
    | zero => omega
    | succ fuel =>
      rw [bytesLE_succ _ _ hn]
      have e1 : leNat (c :: cs) / 256 = leNat cs := by rw [leNat]; omega
      have e2 : leNat (c :: cs) % 256 = c.val := by rw [leNat]; omega
      rw [e1, ih fuel hcs (by rw [leNat] at h; omega)]
      congr 1
      exact Fin.ext e2

theorem getD_bytesLE (fuel n k : Nat) (h : n ≤ fuel) :
    ((bytesLE fuel n).getD k 0).val = n / 256 ^ k % 256 := by
  induction fuel generalizing n k with
  | zero =>
    have : n = 0 := by omega
    subst this
    simp [bytesLE]
  | succ fuel ih =>
    by_cases h0 : n = 0
    · subst h0; rw [bytesLE_zero]; simp
    · rw [bytesLE_succ _ _ h0]
      cases k with
      | zero => simp
      | succ k =>
        rw [List.getD_cons_succ, ih _ _ (div_le_fuel fuel n h h0), Nat.div_div_eq_div_mul,
          pow_succ, Nat.mul_comm]

theorem length_bytesLE_le (fuel n k : Nat) (h : n ≤ fuel) :
    (bytesLE fuel n).length ≤ k ↔ n < 256 ^ k := by
  induction fuel generalizing n k with
  | zero =>
    have : n = 0 := by omega
    subst this
    simp [bytesLE]
  | succ fuel ih =>
    by_cases h0 : n = 0
    · subst h0; rw [bytesLE_zero]; simp
    · rw [bytesLE_succ _ _ h0, List.length_cons]
      cases k with
      | zero => simp; omega
      | succ k =>
        rw [Nat.succ_le_succ_iff, ih _ _ (div_le_fuel fuel n h h0), pow_succ,
          Nat.div_lt_iff_lt_mul (by decide)]

theorem bigSetBytes_eq (buf : List Byte) : bigSetBytes buf = (leNat buf.reverse : Int) := by
  unfold bigSetBytes
  congr 1
  rw [← List.foldr_reverse]
  induction buf.reverse with
  | nil => rfl
  | cons c cs ih => rw [List.foldr_cons, ih, leNat]; omega

theorem lor_two_pow_nonneg (x : Int) (k : Nat) (h : 0 ≤ x) : 0 ≤ Int.lor x (2 ^ k) := by
  obtain ⟨n, rfl⟩ := Int.eq_ofNat_of_zero_le h
  have e : (2 : Int) ^ k = ((2 ^ k : Nat) : Int) := by push_cast; rfl
  rw [e]
  show 0 ≤ ((n ||| 2 ^ k : Nat) : Int)
  exact Int.ofNat_nonneg _

theorem foldl_lor_nonneg (m : Int) (hs : List (List Byte)) (v : Int) (h : 0 ≤ v) :
    0 ≤ hs.foldl (fun v h => Int.lor v (2 ^ slot m h)) v := by
  induction hs generalizing v with
  | nil => exact h
  | cons a hs ih => exact ih _ (lor_two_pow_nonneg v _ h)

theorem bigSetBytes_bigBytes (x : Int) (h : 0 ≤ x) : bigSetBytes (bigBytes x) = x := by
  rw [bigSetBytes_eq, bigBytes, List.reverse_reverse, leNat_bytesLE _ _ (le_refl _)]
  exact Int.natAbs_of_nonneg h

theorem bigBytes_eq_nil (x : Int) : bigBytes x = [] ↔ x = 0 := by
  rw [bigBytes, List.reverse_eq_nil_iff, bytesLE_eq_nil _ _ (le_refl _), Int.natAbs_eq_zero]

theorem SetBytes_Bytes (b c : BloomFilter α ε) (hv : 0 ≤ c.value) (h0 : b.value = 0) :
    (SetBytes b (Bytes c)).value = c.value := by
  unfold SetBytes
  split_ifs with hl
  · rw [h0]
    exact ((bigBytes_eq_nil c.value).1 (List.length_eq_zero.1 hl)).symm
  · exact bigSetBytes_bigBytes _ hv

theorem filter_eq (a b : BloomFilter α ε) (h1 : a.value = b.value)
    (h2 : a.maxBits = b.maxBits) (h3 : a.hasher = b.hasher) : a = b := by
  cases a
  cases b
  simp only [BloomFilter.mk.injEq]
  exact ⟨h1, h2, h3⟩

/-- C2: serialization round trip. For every `maxBits` (in particular every
`maxBits ≥ 0`) and every sequence `hs` of `AddHash` calls on `New(maxBits,
nil)`, the empty one included, the calls return a filter `f`, and
`NewFromBytes(maxBits, nil, f.Bytes())` is equal to `f`: the same bit array,
the same `maxBits`, so the same `Bytes()` and the same `TestHash` result for
every hash. -/
theorem serialization_round_trip (maxBits : Int) (hs : List (List Byte)) :
    ∃ f : BloomFilter α ε,
      AddHashes (New maxBits none) hs = some f ∧
        NewFromBytes maxBits none (Bytes f) = f ∧
        (NewFromBytes maxBits (none : Option (Hasher α ε)) (Bytes f)).value = f.value ∧
        Bytes (NewFromBytes maxBits (none : Option (Hasher α ε)) (Bytes f)) = Bytes f ∧
        ∀ h : List Byte,
          TestHash (NewFromBytes maxBits (none : Option (Hasher α ε)) (Bytes f)) h =
            TestHash f h := by
  have hm := New_maxBits_ne_zero maxBits (none : Option (Hasher α ε))
  obtain ⟨f, e, hmb, hh, hv⟩ := AddHashes_spec hs _ hm
  have hnn : 0 ≤ f.value := by
    rw [hv]
    exact foldl_lor_nonneg _ _ _ (le_refl _)
  have key : NewFromBytes maxBits none (Bytes f) = f := by
    have e1 := SetBytes_Bytes (initializeFilter maxBits (none : Option (Hasher α ε))) f hnn rfl
    have e2 : (NewFromBytes maxBits (none : Option (Hasher α ε)) (Bytes f)).maxBits =
        f.maxBits := by
      rw [hmb]
      unfold NewFromBytes SetBytes
      split_ifs <;> rfl
    have e3 : (NewFromBytes maxBits (none : Option (Hasher α ε)) (Bytes f)).hasher =
        f.hasher := by
      rw [hh]
      unfold NewFromBytes SetBytes
      split_ifs <;> rfl
    exact filter_eq _ _ e1 e2 e3
  refine ⟨f, e, key, ?_, ?_, ?_⟩
  · rw [key]
  · rw [key]
  · intro h
    rw [key]

theorem bigSetBytes_zero_cons (buf : List Byte) : bigSetBytes (0 :: buf) = bigSetBytes buf := by
  unfold bigSetBytes
  rw [List.foldl_cons]
  rfl

theorem bigSetBytes_dropWhile (buf : List Byte) :
    bigSetBytes (buf.dropWhile (fun c => decide (c = 0))) = bigSetBytes buf := by
  induction buf with
  | nil => rfl
  | cons c cs ih =>
    by_cases hc : c = 0
    · subst hc
      rw [List.dropWhile_cons_of_pos (by simp), ih, bigSetBytes_zero_cons]
    · rw [List.dropWhile_cons_of_neg (by simp [hc])]

theorem head_dropWhile_ne_zero (buf : List Byte) :
    (buf.dropWhile (fun c => decide (c = 0))).head? ≠ some 0 := by
  induction buf with
  | nil => simp
  | cons c cs ih =>
    by_cases hc : c = 0
    · subst hc
      rw [List.dropWhile_cons_of_pos (by simp)]
      exact ih
    · rw [List.dropWhile_cons_of_neg (by simp [hc])]
      simp only [List.head?_cons, ne_eq, Option.some.injEq]
      exact hc

theorem bigBytes_bigSetBytes_of_head (buf : List Byte) (h : buf.head? ≠ some 0) :
    bigBytes (bigSetBytes buf) = buf := by
  rw [bigSetBytes_eq, bigBytes, Int.natAbs_ofNat,
    bytesLE_leNat buf.reverse _ (by rwa [List.getLast?_reverse]) (le_refl _),
    List.reverse_reverse]

theorem bigBytes_bigSetBytes (buf : List Byte) :
    bigBytes (bigSetBytes buf) = buf.dropWhile (fun c => decide (c = 0)) := by
  rw [← bigSetBytes_dropWhile]
  exact bigBytes_bigSetBytes_of_head _ (head_dropWhile_ne_zero buf)

/-- C9 as stated fails twice: after `SetBytes([0x00, 0x20])` on a new filter,
`Bytes()` is `[0x20]`, not the buffer; and after `SetBytes([])` on a filter
that holds bit 5, `Bytes()` is still `[0x20]`, not the empty buffer. -/
theorem SetBytes_Bytes_not_identity :
    Bytes (SetBytes (New 16 none : BloomFilter Unit Unit) [0x00, 0x20]) = [0x20] ∧
    Bytes (SetBytes (New 16 none : BloomFilter Unit Unit) [0x00, 0x20]) ≠ [0x00, 0x20] ∧
    Bytes (SetBytes (NewFromBytes 16 none [0x20] : BloomFilter Unit Unit) []) = [0x20] ∧
    Bytes (SetBytes (NewFromBytes 16 none [0x20] : BloomFilter Unit Unit) []) ≠ [] := by
  decide

/-- C9 as the code does it. For every filter, whatever its prior state, and
every NON-EMPTY buffer `buf`: after `SetBytes(buf)` the bit array is the
big-endian unsigned integer read from `buf`, `maxBits` is unchanged, and
`Bytes()` returns `buf` without its leading zero bytes, which is `buf` itself
when its first byte is not zero. For the empty buffer the filter is left as it
was. For every buffer, applying `SetBytes(buf)` a second time changes
nothing. -/
theorem SetBytes_determines_state (b : BloomFilter α ε) (buf : List Byte) :
    (buf ≠ [] →
      (SetBytes b buf).value = bigSetBytes buf ∧
      MaxBits (SetBytes b buf) = MaxBits b ∧
      Bytes (SetBytes b buf) = buf.dropWhile (fun c => decide (c = 0)) ∧
      (buf.head? ≠ some 0 → Bytes (SetBytes b buf) = buf)) ∧
    (buf = [] → SetBytes b buf = b) ∧
    SetBytes (SetBytes b buf) buf = SetBytes b buf := by
  refine ⟨?_, ?_, ?_⟩
  · intro hne
    have hl : ¬ buf.length = 0 := fun e => hne (List.length_eq_zero.1 e)
    have e : SetBytes b buf = { b with value := bigSetBytes buf } := by
      unfold SetBytes
      rw [if_neg hl]
    rw [e]
    refine ⟨rfl, rfl, bigBytes_bigSetBytes buf, ?_⟩
    intro hh
    exact bigBytes_bigSetBytes_of_head buf hh
  · intro e
    rw [e]
    rfl
  · unfold SetBytes
    split_ifs <;> rfl

theorem pow_256 (k : Nat) : 256 ^ k = 2 ^ (8 * k) := by
  rw [pow_mul]
  norm_num

theorem length_bigBytes (n : Nat) : (bigBytes (n : Int)).length = (bytesLE n n).length := by
  rw [bigBytes, List.length_reverse, Int.natAbs_ofNat]

theorem lt_of_length_bigBytes (n : Nat) : n < 2 ^ (8 * (bigBytes (n : Int)).length) := by
  rw [← pow_256, length_bigBytes]
  exact (length_bytesLE_le n n _ (le_refl _)).1 (le_refl _)

theorem le_of_length_bigBytes (n : Nat) (h : n ≠ 0) :
    2 ^ (8 * ((bigBytes (n : Int)).length - 1)) ≤ n := by
  rw [← pow_256, length_bigBytes]
  have hpos : 0 < (bytesLE n n).length := by
    rw [List.length_pos]
    exact fun e => h ((bytesLE_eq_nil n n (le_refl _)).1 e)
  by_contra hlt
  have := (length_bytesLE_le n n ((bytesLE n n).length - 1) (le_refl _)).2 (by omega)
  omega

theorem getD_bigBytes (n k : Nat) (hk : k < (bigBytes (n : Int)).length) :
    ((bigBytes (n : Int)).getD ((bigBytes (n : Int)).length - 1 - k) 0).val =
      n / 256 ^ k % 256 := by
  rw [← getD_bytesLE n n k (le_refl _)]
  have hl := length_bigBytes n
  rw [hl] at hk ⊢
  congr 1
  rw [List.getD_eq_getElem?_getD, List.getD_eq_getElem?_getD, bigBytes, Int.natAbs_ofNat,
    List.getElem?_reverse (by omega)]
  congr 2
  omega

theorem testBit_byte (n i : Nat) :
    Nat.testBit (n / 256 ^ (i / 8) % 256) (i % 8) = Nat.testBit n i := by
  rw [pow_256, ← Nat.shiftRight_eq_div_pow, show (256 : Nat) = 2 ^ 8 by norm_num,
    Nat.testBit_mod_two_pow, Nat.testBit_shiftRight]
  have h1 : i % 8 < 8 := Nat.mod_lt _ (by decide)
  have h2 : 8 * (i / 8) + i % 8 = i := by omega
  rw [h2]
  simp [h1]

theorem testBit_bigBytes (n i : Nat) :
    Nat.testBit n i = true ↔
      i / 8 < (bigBytes (n : Int)).length ∧
        Nat.testBit ((bigBytes (n : Int)).getD ((bigBytes (n : Int)).length - 1 - i / 8) 0).val
          (i % 8) = true := by
  by_cases hk : i / 8 < (bigBytes (n : Int)).length
  · rw [getD_bigBytes n _ hk, testBit_byte]
    simp [hk]
  · have hlt : n < 2 ^ i :=
      lt_of_lt_of_le (lt_of_length_bigBytes n) (Nat.pow_le_pow_right (by decide) (by omega))
    rw [Nat.testBit_lt_two_pow hlt]
    simp [hk]

theorem head_bigBytes (x : Int) : (bigBytes x).head? ≠ some 0 := by
  rw [bigBytes, List.head?_reverse]
  exact getLast_bytesLE _ _ (le_refl _)

theorem bigBytes_nil_iff_no_bit (n : Nat) :
    bigBytes (n : Int) = [] ↔ ∀ i : Nat, Nat.testBit n i = false := by
  rw [bigBytes_eq_nil]
  constructor
  · intro e i
    have : n = 0 := by exact_mod_cast e
    rw [this]
    exact Nat.zero_testBit i
  · intro h
    have : n = 0 := Nat.eq_of_testBit_eq (fun i => by rw [h i, Nat.zero_testBit])
    rw [this]
    rfl

theorem length_bigBytes_top (n top : Nat) (h1 : Nat.testBit n top = true)
    (h2 : ∀ j : Nat, top < j → Nat.testBit n j = false) :
    (bigBytes (n : Int)).length = top / 8 + 1 := by
  have hge : 2 ^ top ≤ n := Nat.testBit_implies_ge h1
  have hn : n ≠ 0 := by
    have := Nat.pos_pow_of_pos top (by decide : 0 < 2)
    omega
  have hlt : n < 2 ^ (top + 1) := Nat.lt_pow_two_of_testBit n (fun i hi => h2 i (by omega))
  have a := lt_of_length_bigBytes n
  have b := le_of_length_bigBytes n hn
  have c1 : top < 8 * (bigBytes (n : Int)).length :=
    (Nat.pow_lt_pow_iff_right (by decide : 1 < 2)).1 (lt_of_le_of_lt hge a)
  have c2 : 8 * ((bigBytes (n : Int)).length - 1) < top + 1 :=
    (Nat.pow_lt_pow_iff_right (by decide : 1 < 2)).1 (lt_of_le_of_lt b hlt)
  omega

theorem length_bigBytes_le (n m : Nat) (h : n < 2 ^ m) :
    (bigBytes (n : Int)).length ≤ (m + 7) / 8 := by
  rw [length_bigBytes, length_bytesLE_le n n _ (le_refl _), pow_256]
  exact lt_of_lt_of_le h (Nat.pow_le_pow_right (by decide) (by omega))

theorem slot_lt (m : Int) (hm : 0 < m) (hash : List Byte) : slot m hash < m.toNat := by
  have h1 := tmod_leValue_eq_slot m hash
  have h2 := Int.tmod_lt_of_pos (leValue (truncateHash 4 hash)) hm
  omega

theorem slot_lt_natAbs (m : Int) (hm : m ≠ 0) (hash : List Byte) :
    slot m hash < m.natAbs := by
  have h1 := tmod_leValue_eq_slot m hash
  rcases lt_or_gt_of_ne hm with hneg | hpos
  · have h2 := Int.tmod_lt_of_pos (leValue (truncateHash 4 hash)) (show 0 < -m by omega)
    rw [Int.tmod_neg] at h2
    omega
  · have h2 := Int.tmod_lt_of_pos (leValue (truncateHash 4 hash)) hpos
    omega

/-- C10 as stated fails for a negative capacity: `New(-16, nil)` keeps
`maxBits = -16`, `AddHash(05 00 00 00)` sets bit 5 (`5 % -16` is `5` in Go),
and `Bytes()` is `[0x20]`, of length 1, while `ceil(maxBits / 8)` is `-2`. -/
theorem Bytes_exceeds_negative_capacity :
    ∃ f : BloomFilter Unit Unit,
      AddHashes (New (-16) none) [[0x05, 0x00, 0x00, 0x00]] = some f ∧
      MaxBits f = -16 ∧ Bytes f = [0x20] ∧ (MaxBits f + 7) / 8 = -2 ∧
      ¬ (((Bytes f).length : Int) ≤ (MaxBits f + 7) / 8) :=
  ⟨_, rfl, by decide, by decide, by decide, by decide⟩

/-- C10 as the code does it. For a filter made by `New` with any `maxBits`
and any sequence `hs` of hashes added by `AddHash` / `AddHashes`, the calls
return a filter `f` whose `Bytes()` is the minimal big-endian encoding of the
bit array: it is empty iff no bit is set; its first byte is never `0x00`; bit
`i` of the state is set iff `i div 8` is inside the buffer and bit `i mod 8`
of the byte at position `len - 1 - (i div 8)` is set; for a non-empty buffer
there is a highest set index `top` and `len = top div 8 + 1`; and `len` never
exceeds `ceil(|maxBits| / 8)`, which is `ceil(maxBits / 8)` when
`maxBits ≥ 0`. -/
theorem Bytes_canonical (maxBits : Int) (hasher : Option (Hasher α ε))
    (hs : List (List Byte)) :
    ∃ f : BloomFilter α ε,
      AddHashes (New maxBits hasher) hs = some f ∧
      (Bytes f = [] ↔ ∀ i : Nat, Int.testBit f.value i = false) ∧
      (Bytes f).head? ≠ some 0 ∧
      (∀ i : Nat, Int.testBit f.value i = true ↔
        i / 8 < (Bytes f).length ∧
          Nat.testBit ((Bytes f).getD ((Bytes f).length - 1 - i / 8) 0).val (i % 8) = true) ∧
      (Bytes f ≠ [] →
        ∃ top : Nat, Int.testBit f.value top = true ∧
          (∀ j : Nat, top < j → Int.testBit f.value j = false) ∧
          (Bytes f).length = top / 8 + 1) ∧
      (Bytes f).length ≤ ((MaxBits f).natAbs + 7) / 8 ∧
      (0 ≤ maxBits → ((Bytes f).length : Int) ≤ (MaxBits f + 7) / 8) := by
  have hne := New_maxBits_ne_zero maxBits hasher
  obtain ⟨f, e, hmbf, -, hv⟩ := AddHashes_spec hs (New maxBits hasher) hne
  have hnn : 0 ≤ f.value := by
    rw [hv]
    exact foldl_lor_nonneg _ _ _ (le_refl _)
  obtain ⟨n, hn⟩ := Int.eq_ofNat_of_zero_le hnn
  have hbit : ∀ i : Nat, Int.testBit f.value i = Nat.testBit n i := by
    intro i
    rw [hn]
    rfl
  have hB : Bytes f = bigBytes (n : Int) := by rw [Bytes, hn]
  have hlen : (Bytes f).length ≤ ((MaxBits f).natAbs + 7) / 8 := by
    have hlt : n < 2 ^ (MaxBits f).natAbs := by
      apply Nat.lt_pow_two_of_testBit
      intro i hi
      rw [← hbit, hv, testBit_foldl_lor]
      have hz : Int.testBit (New maxBits hasher).value i = false := testBit_zero_left i
      rw [hz, Bool.false_or, List.any_eq_false]
      intro h _
      have := slot_lt_natAbs _ hne h
      rw [MaxBits, hmbf] at hi
      simp only [decide_eq_true_eq]
      omega
    rw [hB]
    exact length_bigBytes_le n _ hlt
  refine ⟨f, e, ?_, ?_, ?_, ?_, hlen, ?_⟩
  · rw [hB, bigBytes_nil_iff_no_bit]
    simp only [hbit]
  · rw [hB]
    exact head_bigBytes _
  · intro i
    rw [hbit, hB]
    exact testBit_bigBytes n i
  · intro hne
    have hn0 : n ≠ 0 := by
      intro e0
      apply hne
      rw [hB, e0]
      rfl
    obtain ⟨top, h1, h2⟩ := Nat.exists_most_significant_bit hn0
    refine ⟨top, ?_, ?_, ?_⟩
    · rw [hbit]; exact h1
    · intro j hj
      rw [hbit]; exact h2 j hj
    · rw [hB]
      exact length_bigBytes_top n top h1 h2
  · intro hmb
    have hp : 0 < MaxBits f := by
      rw [MaxBits, hmbf]
      exact New_maxBits_pos maxBits hmb hasher
    omega

theorem hash_congr (b c : BloomFilter α ε) (h : c.hasher = b.hasher) (v : α) :
    hash c v = hash b v := by
  unfold hash
  rw [h]

theorem hash_ne_nil (b : BloomFilter α ε) (v : α) (hashes : List (List Byte))
    (h : hash b v = Except.ok hashes) : hashes ≠ [] := by
  unfold hash at h
  split at h
  · cases h
  · split at h
    · cases h
    · split_ifs at h with hl
      cases h
      exact fun e => hl (by rw [e]; rfl)

theorem AddHashes_singleton (b : BloomFilter α ε) (h : List Byte) :
    AddHashes b [h] = AddHash b h := by
  unfold AddHashes
  cases AddHash b h <;> rfl

theorem Add_ok (b b1 : BloomFilter α ε) (v : α) (h : Add b v = some (b1, none)) :
    ∃ hashes, hash b v = Except.ok hashes ∧ AddHashes b hashes = some b1 := by
  unfold Add at h
  split at h
  · cases h
  · next hashes hh =>
    refine ⟨hashes, hh, ?_⟩
    split at h
    · next x =>
      rw [AddHashes_singleton]
      cases hx : AddHash b x with
      | none => rw [hx] at h; cases h
      | some c => rw [hx] at h; cases h; rfl
    · cases hx : AddHashes b hashes with
      | none => rw [hx] at h; cases h
      | some c => rw [hx] at h; cases h; rfl

theorem bitIndex_maxBits_zero (b : BloomFilter α ε) (hash : List Byte) (h : b.maxBits = 0) :
    bitIndex b hash = none := by
  unfold bitIndex
  simp only []
  split
  · rw [if_pos h]
  · rfl

theorem AddHash_maxBits_ne_zero (b c : BloomFilter α ε) (hash : List Byte)
    (h : AddHash b hash = some c) : b.maxBits ≠ 0 := by
  intro h0
  unfold AddHash at h
  rw [bitIndex_maxBits_zero b hash h0] at h
  cases h

theorem AddHashes_maxBits_ne_zero (b c : BloomFilter α ε) (hashes : List (List Byte))
    (hne : hashes ≠ []) (h : AddHashes b hashes = some c) : b.maxBits ≠ 0 := by
  cases hashes with
  | nil => exact absurd rfl hne
  | cons x xs =>
    unfold AddHashes at h
    cases hx : AddHash b x with
    | none => rw [hx] at h; cases h
    | some d => exact AddHash_maxBits_ne_zero b d x hx

theorem TestHashes_eq (b : BloomFilter α ε) (hm : b.maxBits ≠ 0) (hashes : List (List Byte)) :
    TestHashes b hashes =
      some (hashes.all (fun h => Int.testBit b.value (slot b.maxBits h))) := by
  induction hashes with
  | nil => rfl
  | cons x xs ih =>
    unfold TestHashes
    rw [TestHash_eq b x hm, List.all_cons]
    cases Int.testBit b.value (slot b.maxBits x)
    · rfl
    · simp only [Bool.true_and]
      exact ih

theorem Test_ok (b : BloomFilter α ε) (hm : b.maxBits ≠ 0) (v : α) (hashes : List (List Byte))
    (h : hash b v = Except.ok hashes) :
    Test b v = some (hashes.all (fun h => Int.testBit b.value (slot b.maxBits h)), none) := by
  unfold Test
  rw [h]
  simp only []
  split
  · next x =>
    rw [TestHash_eq b x hm]
    simp
  · rw [TestHashes_eq b hm]

theorem AddHashes_grows (b c : BloomFilter α ε) (hm : b.maxBits ≠ 0)
    (hashes : List (List Byte)) (h : AddHashes b hashes = some c) :
    c.maxBits = b.maxBits ∧ c.hasher = b.hasher ∧
      (∀ i : Nat, Int.testBit b.value i = true → Int.testBit c.value i = true) ∧
      ∀ x ∈ hashes, Int.testBit c.value (slot b.maxBits x) = true := by
  obtain ⟨f, e, h1, h2, h3⟩ := AddHashes_spec hashes b hm
  rw [h] at e
  cases e
  refine ⟨h1, h2, ?_, ?_⟩
  · intro i hi
    rw [h3, testBit_foldl_lor, hi, Bool.true_or]
  · intro x hx
    rw [h3, testBit_foldl_lor, Bool.or_eq_true, List.any_eq_true]
    exact Or.inr ⟨x, hx, by simp⟩

theorem growOk_grows (b c : BloomFilter α ε) (hm : b.maxBits ≠ 0) (call : Grow α)
    (h : growOk b call = some c) :
    c.maxBits = b.maxBits ∧ c.hasher = b.hasher ∧
      ∀ i : Nat, Int.testBit b.value i = true → Int.testBit c.value i = true := by
  cases call with
  | add v =>
    have ha : Add b v = some (c, none) := by
      have h1 : (match Add b v with
        | some (b1, none) => some b1
        | _ => none) = some c := h
      split at h1
      · next b1 hb => cases h1; exact hb
      · cases h1
    obtain ⟨hashes, -, e⟩ := Add_ok b c v ha
    obtain ⟨h1, h2, h3, -⟩ := AddHashes_grows b c hm hashes e
    exact ⟨h1, h2, h3⟩
  | addHash x =>
    have e : AddHashes b [x] = some c := by rw [AddHashes_singleton]; exact h
    obtain ⟨h1, h2, h3, -⟩ := AddHashes_grows b c hm [x] e
    exact ⟨h1, h2, h3⟩
  | addHashes hashes =>
    obtain ⟨h1, h2, h3, -⟩ := AddHashes_grows b c hm hashes h
    exact ⟨h1, h2, h3⟩

theorem growAllOk_grows (calls : List (Grow α)) (b c : BloomFilter α ε) (hm : b.maxBits ≠ 0)
    (h : growAllOk b calls = some c) :
    c.maxBits = b.maxBits ∧ c.hasher = b.hasher ∧
      ∀ i : Nat, Int.testBit b.value i = true → Int.testBit c.value i = true := by
  induction calls generalizing b with
  | nil =>
    cases h
    exact ⟨rfl, rfl, fun _ hi => hi⟩
  | cons call calls ih =>
    unfold growAllOk at h
    cases hc : growOk b call with
    | none => rw [hc] at h; cases h
    | some d =>
      rw [hc] at h
      obtain ⟨h1, h2, h3⟩ := growOk_grows b d hm call hc
      obtain ⟨k1, k2, k3⟩ := ih d (by rw [h1]; exact hm) h
      exact ⟨k1.trans h1, k2.trans h2, fun i hi => k3 i (h3 i hi)⟩

theorem Add_total (b : BloomFilter α ε) (hm : b.maxBits ≠ 0) (v : α) :
    (∃ b1, Add b v = some (b1, none)) ∨ (∃ err, Add b v = some (b, some err)) := by
  unfold Add
  split
  · next err _ => exact Or.inr ⟨err, rfl⟩
  · next hashes _ =>
    left
    split
    · next x _ =>
      rw [AddHash_eq b x hm]
      exact ⟨_, rfl⟩
    · rw [AddHashes_eq hashes b hm]
      exact ⟨_, rfl⟩

theorem growOk_total (b : BloomFilter α ε) (hm : b.maxBits ≠ 0) (call : Grow α) :
    (∃ b1, growOk b call = some b1) ∨
      (∃ v err, call = Grow.add v ∧ Add b v = some (b, some err)) := by
  cases call with
  | add v =>
    rcases Add_total b hm v with ⟨b1, h⟩ | ⟨err, h⟩
    · left
      refine ⟨b1, ?_⟩
      show (match Add b v with
        | some (b1, none) => some b1
        | _ => none) = some b1
      rw [h]
    · exact Or.inr ⟨v, err, rfl, h⟩
  | addHash x => exact Or.inl ⟨_, AddHash_eq b x hm⟩
  | addHashes hashes => exact Or.inl ⟨_, AddHashes_eq hashes b hm⟩

/-- C3: no false negatives at the payload level. The hasher is a function of
the payload. For every filter and payload `p`, if `Add(p)` returns no error,
then `Test(p)` on the resulting filter returns `(true, nil)`, and it still
returns `(true, nil)` after any further sequence of successful `Add` /
`AddHash` / `AddHashes` calls. On every filter reached that way a further call
either succeeds or is an `Add` that returns an error and leaves the filter as
it was: no call panics. -/
theorem no_false_negative_payload (b b1 : BloomFilter α ε) (p : α)
    (hadd : Add b p = some (b1, none)) :
    Test b1 p = some (true, none) ∧
      ∀ (calls : List (Grow α)) (b2 : BloomFilter α ε),
        growAllOk b1 calls = some b2 →
          Test b2 p = some (true, none) ∧
          ∀ call : Grow α, (∃ b3, growOk b2 call = some b3) ∨
            (∃ v err, call = Grow.add v ∧ Add b2 v = some (b2, some err)) := by
  obtain ⟨hashes, hh, e⟩ := Add_ok b b1 p hadd
  have hm : b.maxBits ≠ 0 := AddHashes_maxBits_ne_zero b b1 hashes (hash_ne_nil b p hashes hh) e
  obtain ⟨h1, h2, -, h4⟩ := AddHashes_grows b b1 hm hashes e
  have hm1 : b1.maxBits ≠ 0 := by rw [h1]; exact hm
  have later : ∀ (calls : List (Grow α)) (b2 : BloomFilter α ε),
      growAllOk b1 calls = some b2 →
        Test b2 p = some (true, none) ∧
        ∀ call : Grow α, (∃ b3, growOk b2 call = some b3) ∨
          (∃ v err, call = Grow.add v ∧ Add b2 v = some (b2, some err)) := by
    intro calls b2 hg
    obtain ⟨k1, k2, k3⟩ := growAllOk_grows calls b1 b2 hm1 hg
    refine ⟨?_, growOk_total b2 (by rw [k1]; exact hm1)⟩
    have hh2 : hash b2 p = Except.ok hashes := by
      rw [hash_congr b b2 (k2.trans h2)]
      exact hh
    rw [Test_ok b2 (by rw [k1]; exact hm1) p hashes hh2]
    have hall : hashes.all (fun h => Int.testBit b2.value (slot b2.maxBits h)) = true := by
      rw [List.all_eq_true]
      intro x hx
      rw [k1, h1]
      exact k3 _ (h4 x hx)
    rw [hall]
  exact ⟨(later [] b1 rfl).1, later⟩

/-- C3 at a concrete input: capacity 16, a hasher that returns the hash
`05 00 00 00`, and the payload `()`. -/
theorem no_false_negative_payload_witness :
    Add (New 16 (some fiveHasher)) () =
        some ({ value := 32, maxBits := 16, hasher := some fiveHasher }, none) ∧
    Test ({ value := 32, maxBits := 16, hasher := some fiveHasher } : BloomFilter Unit Unit) () =
        some (true, none) ∧
      ∀ (calls : List (Grow Unit)) (b2 : BloomFilter Unit Unit),
        growAllOk { value := 32, maxBits := 16, hasher := some fiveHasher } calls = some b2 →
          Test b2 () = some (true, none) ∧
          ∀ call : Grow Unit, (∃ b3, growOk b2 call = some b3) ∨
            (∃ v err, call = Grow.add v ∧ Add b2 v = some (b2, some err)) :=
  ⟨rfl, no_false_negative_payload (New 16 (some fiveHasher)) _ () rfl⟩

theorem hash_of_none (b : BloomFilter α ε) (v : α) (h : b.hasher = none) :
    hash b v = Except.error Error.hasherNotSet := by
  unfold hash
  rw [h]

theorem hash_of_error (b : BloomFilter α ε) (v : α) (hr : Hasher α ε) (e : ε)
    (h : b.hasher = some hr) (he : hr.BuildHashes v = Except.error e) :
    hash b v = Except.error (Error.ofHasher e) := by
  unfold hash
  rw [h]
  simp only []
  rw [he]

theorem hash_of_empty (b : BloomFilter α ε) (v : α) (hr : Hasher α ε)
    (h : b.hasher = some hr) (he : hr.BuildHashes v = Except.ok []) :
    hash b v = Except.error Error.emptyResult := by
  unfold hash
  rw [h]
  simp only []
  rw [he]
  rfl

theorem hash_of_ok (b : BloomFilter α ε) (v : α) (hr : Hasher α ε) (hs : List (List Byte))
    (h : b.hasher = some hr) (he : hr.BuildHashes v = Except.ok hs) (hne : hs ≠ []) :
    hash b v = Except.ok hs := by
  unfold hash
  rw [h]
  simp only []
  rw [he]
  simp only []
  rw [if_neg (fun e => hne (List.length_eq_zero.1 e))]

theorem hash_ok_inv (b : BloomFilter α ε) (v : α) (hs : List (List Byte))
    (h : hash b v = Except.ok hs) :
    ∃ hr, b.hasher = some hr ∧ hr.BuildHashes v = Except.ok hs ∧ hs ≠ [] := by
  have hne := hash_ne_nil b v hs h
  unfold hash at h
  split at h
  · cases h
  · next hr hb =>
    refine ⟨hr, hb, ?_, hne⟩
    split at h
    · cases h
    · next hs1 h1 =>
      split_ifs at h
      cases h
      exact h1

theorem Add_of_hash_error (b : BloomFilter α ε) (v : α) (err : Error ε)
    (h : hash b v = Except.error err) : Add b v = some (b, some err) := by
  unfold Add
  rw [h]

theorem Add_of_hash_ok (b : BloomFilter α ε) (v : α) (hs : List (List Byte))
    (h : hash b v = Except.ok hs) :
    Add b v = (AddHashes b hs).map (fun b1 => (b1, none)) := by
  unfold Add
  rw [h]
  simp only []
  split
  · next x =>
    rw [AddHashes_singleton]
    cases AddHash b x <;> rfl
  · cases AddHashes b hs <;> rfl

theorem TestHashes_singleton (b : BloomFilter α ε) (h : List Byte) :
    TestHashes b [h] = TestHash b h := by
  unfold TestHashes
  cases TestHash b h with
  | none => rfl
  | some r => cases r <;> rfl

theorem Test_of_hash_error (b : BloomFilter α ε) (v : α) (err : Error ε)
    (h : hash b v = Except.error err) : Test b v = some (true, some err) := by
  unfold Test
  rw [h]

theorem Test_of_hash_ok (b : BloomFilter α ε) (v : α) (hs : List (List Byte))
    (h : hash b v = Except.ok hs) :
    Test b v = (TestHashes b hs).map (fun r => (r, none)) := by
  unfold Test
  rw [h]
  simp only []
  split
  · next x =>
    rw [TestHashes_singleton]
    cases TestHash b x <;> rfl
  · cases TestHashes b hs <;> rfl

theorem hash_cases (b : BloomFilter α ε) (v : α) :
    (b.hasher = none ∧ hash b v = Except.error Error.hasherNotSet) ∨
    (∃ hr e, b.hasher = some hr ∧ hr.BuildHashes v = Except.error e ∧
      hash b v = Except.error (Error.ofHasher e)) ∨
    (∃ hr, b.hasher = some hr ∧ hr.BuildHashes v = Except.ok [] ∧
      hash b v = Except.error Error.emptyResult) ∨
    (∃ hr hs, b.hasher = some hr ∧ hr.BuildHashes v = Except.ok hs ∧ hs ≠ [] ∧
      hash b v = Except.ok hs) := by
  cases hb : b.hasher with
  | none => exact Or.inl ⟨rfl, hash_of_none b v hb⟩
  | some hr =>
    right
    cases he : hr.BuildHashes v with
    | error e => exact Or.inl ⟨hr, e, rfl, he, hash_of_error b v hr e hb he⟩
    | ok hs =>
      right
      cases hs with
      | nil => exact Or.inl ⟨hr, rfl, he, hash_of_empty b v hr hb he⟩
      | cons x xs =>
        exact Or.inr ⟨hr, x :: xs, rfl, he, List.cons_ne_nil _ _,
          hash_of_ok b v hr _ hb he (List.cons_ne_nil _ _)⟩

/-- C11: `Add` fails exactly in three cases. On a filter with a capacity (as
every constructor gives), `Add(p)` returns, and its error is non-nil if and
only if no hasher is set, or the hasher returns an error for `p`, or the
hasher returns zero hashes; the error is then respectively the
configuration error, the error of the hasher itself, and the empty-result
error. In every other case `Add` returns nil. -/
theorem Add_error_iff (b : BloomFilter α ε) (hm : b.maxBits ≠ 0) (p : α) :
    ∃ (b1 : BloomFilter α ε) (r : Option (Error ε)), Add b p = some (b1, r) ∧
      (r ≠ none ↔
        (b.hasher = none ∨
          (∃ hr e, b.hasher = some hr ∧ hr.BuildHashes p = Except.error e) ∨
          (∃ hr, b.hasher = some hr ∧ hr.BuildHashes p = Except.ok []))) ∧
      (b.hasher = none → r = some Error.hasherNotSet) ∧
      (∀ hr e, b.hasher = some hr → hr.BuildHashes p = Except.error e →
        r = some (Error.ofHasher e)) ∧
      (∀ hr, b.hasher = some hr → hr.BuildHashes p = Except.ok [] →
        r = some Error.emptyResult) := by
  rcases hash_cases b p with ⟨hb, hh⟩ | ⟨hr, e, hb, he, hh⟩ | ⟨hr, hb, he, hh⟩ |
    ⟨hr, hs, hb, he, hne, hh⟩
  · refine ⟨b, _, Add_of_hash_error b p _ hh, ?_, fun _ => rfl, ?_, ?_⟩
    · exact ⟨fun _ => Or.inl hb, fun _ => by simp⟩
    · intro hr e h1; rw [hb] at h1; cases h1
    · intro hr h1; rw [hb] at h1; cases h1
  · refine ⟨b, _, Add_of_hash_error b p _ hh, ?_, ?_, ?_, ?_⟩
    · exact ⟨fun _ => Or.inr (Or.inl ⟨hr, e, hb, he⟩), fun _ => by simp⟩
    · intro h1; rw [hb] at h1; cases h1
    · intro hr1 e1 h1 h2
      rw [hb] at h1; cases h1
      rw [he] at h2; cases h2
      rfl
    · intro hr1 h1 h2
      rw [hb] at h1; cases h1
      rw [he] at h2; cases h2
  · refine ⟨b, _, Add_of_hash_error b p _ hh, ?_, ?_, ?_, ?_⟩
    · exact ⟨fun _ => Or.inr (Or.inr ⟨hr, hb, he⟩), fun _ => by simp⟩
    · intro h1; rw [hb] at h1; cases h1
    · intro hr1 e1 h1 h2
      rw [hb] at h1; cases h1
      rw [he] at h2; cases h2
    · intro hr1 h1 h2
      rfl
  · obtain ⟨f, e, -⟩ := AddHashes_spec hs b hm
    refine ⟨f, none, ?_, ?_, ?_, ?_, ?_⟩
    · rw [Add_of_hash_ok b p hs hh, e]
      rfl
    · constructor
      · intro h; exact absurd rfl h
      · rintro (h1 | ⟨hr1, e1, h1, h2⟩ | ⟨hr1, h1, h2⟩)
        · rw [hb] at h1; cases h1
        · rw [hb] at h1; cases h1
          rw [he] at h2; cases h2
        · rw [hb] at h1; cases h1
          rw [he] at h2; cases h2
          exact absurd rfl hne
    · intro h1; rw [hb] at h1; cases h1
    · intro hr1 e1 h1 h2
      rw [hb] at h1; cases h1
      rw [he] at h2; cases h2
    · intro hr1 h1 h2
      rw [hb] at h1; cases h1
      rw [he] at h2; cases h2
      exact absurd rfl hne

/-- C11 at a concrete input: capacity 16 and a hasher that returns one hash. -/
theorem Add_error_iff_witness :
    (New 16 (some fiveHasher)).maxBits ≠ 0 ∧
    ∃ (b1 : BloomFilter Unit Unit) (r : Option (Error Unit)),
      Add (New 16 (some fiveHasher)) () = some (b1, r) ∧
      (r ≠ none ↔
        ((New 16 (some fiveHasher)).hasher = none ∨
          (∃ hr e, (New 16 (some fiveHasher)).hasher = some hr ∧
            hr.BuildHashes () = Except.error e) ∨
          (∃ hr, (New 16 (some fiveHasher)).hasher = some hr ∧
            hr.BuildHashes () = Except.ok []))) ∧
      ((New 16 (some fiveHasher)).hasher = none → r = some Error.hasherNotSet) ∧
      (∀ hr e, (New 16 (some fiveHasher)).hasher = some hr →
        hr.BuildHashes () = Except.error e → r = some (Error.ofHasher e)) ∧
      (∀ hr, (New 16 (some fiveHasher)).hasher = some hr →
        hr.BuildHashes () = Except.ok [] → r = some Error.emptyResult) :=
  ⟨by decide, Add_error_iff (New 16 (some fiveHasher)) (by decide) ()⟩

/-- C12: `Add` is atomic on error. Whenever `Add(p)` returns an error the
filter is the one before the call; each of the three error cases (no hasher,
hasher failure, zero hashes) does return such an error with the filter
unchanged; and when the hasher returns the hashes `hs`, not empty, `Add(p)`
does what `AddHashes(hs...)` does and returns nil, which on a filter with a
capacity gives the state of `AddHashes(hs...)`. -/
theorem Add_atomic (b : BloomFilter α ε) (p : α) :
    (∀ (b1 : BloomFilter α ε) (err : Error ε), Add b p = some (b1, some err) →
      b1 = b ∧ b1.value = b.value ∧ MaxBits b1 = MaxBits b) ∧
    (b.hasher = none → Add b p = some (b, some Error.hasherNotSet)) ∧
    (∀ hr e, b.hasher = some hr → hr.BuildHashes p = Except.error e →
      Add b p = some (b, some (Error.ofHasher e))) ∧
    (∀ hr, b.hasher = some hr → hr.BuildHashes p = Except.ok [] →
      Add b p = some (b, some Error.emptyResult)) ∧
    (∀ hr hs, b.hasher = some hr → hr.BuildHashes p = Except.ok hs → hs ≠ [] →
      Add b p = (AddHashes b hs).map (fun b1 => (b1, none)) ∧
      (b.maxBits ≠ 0 → ∃ b1, AddHashes b hs = some b1 ∧ Add b p = some (b1, none))) ∧
    (∀ b1 : BloomFilter α ε, Add b p = some (b1, none) →
      ∃ hr hs, b.hasher = some hr ∧ hr.BuildHashes p = Except.ok hs ∧
        AddHashes b hs = some b1) := by
  refine ⟨?_, ?_, ?_, ?_, ?_, ?_⟩
  · intro b1 err h
    have e : b1 = b := by
      cases hh : hash b p with
      | error err1 =>
        rw [Add_of_hash_error b p err1 hh] at h
        cases h
        rfl
      | ok hs =>
        rw [Add_of_hash_ok b p hs hh] at h
        cases hx : AddHashes b hs with
        | none => rw [hx] at h; cases h
        | some c => rw [hx] at h; cases h
    rw [e]
    exact ⟨rfl, rfl, rfl⟩
  · intro hb
    exact Add_of_hash_error b p _ (hash_of_none b p hb)
  · intro hr e hb he
    exact Add_of_hash_error b p _ (hash_of_error b p hr e hb he)
  · intro hr hb he
    exact Add_of_hash_error b p _ (hash_of_empty b p hr hb he)
  · intro hr hs hb he hne
    have e := Add_of_hash_ok b p hs (hash_of_ok b p hr hs hb he hne)
    refine ⟨e, ?_⟩
    intro hm
    obtain ⟨f, e1, -⟩ := AddHashes_spec hs b hm
    refine ⟨f, e1, ?_⟩
    rw [e, e1]
    rfl
  · intro b1 h
    obtain ⟨hs, hh, e⟩ := Add_ok b b1 p h
    obtain ⟨hr, hb, he, -⟩ := hash_ok_inv b p hs hh
    exact ⟨hr, hs, hb, he, e⟩

/-- C13: `Test` is biased to "present" on error. If no hasher is set, or the
hasher returns an error, or it returns zero hashes, `Test(p)` returns `true`
with a non-nil error (the configuration error, the error of the hasher
itself, the empty-result error). When the hasher returns the hashes `hs`, not
empty, `Test(p)` does what `TestHashes(hs...)` does and returns a nil error;
whenever `Test` returns a nil error its boolean is that of `TestHashes` on
the hashes the hasher returned; and on a filter with a capacity `Test`
always returns. -/
theorem Test_biased_on_error (b : BloomFilter α ε) (p : α) :
    (b.hasher = none → Test b p = some (true, some Error.hasherNotSet)) ∧
    (∀ hr e, b.hasher = some hr → hr.BuildHashes p = Except.error e →
      Test b p = some (true, some (Error.ofHasher e))) ∧
    (∀ hr, b.hasher = some hr → hr.BuildHashes p = Except.ok [] →
      Test b p = some (true, some Error.emptyResult)) ∧
    (∀ hr hs, b.hasher = some hr → hr.BuildHashes p = Except.ok hs → hs ≠ [] →
      Test b p = (TestHashes b hs).map (fun r => (r, none))) ∧
    (∀ r : Bool, Test b p = some (r, none) →
      ∃ hr hs, b.hasher = some hr ∧ hr.BuildHashes p = Except.ok hs ∧
        TestHashes b hs = some r) ∧
    (b.maxBits ≠ 0 → ∃ (r : Bool) (err : Option (Error ε)), Test b p = some (r, err)) := by
  refine ⟨?_, ?_, ?_, ?_, ?_, ?_⟩
  · intro hb
    exact Test_of_hash_error b p _ (hash_of_none b p hb)
  · intro hr e hb he
    exact Test_of_hash_error b p _ (hash_of_error b p hr e hb he)
  · intro hr hb he
    exact Test_of_hash_error b p _ (hash_of_empty b p hr hb he)
  · intro hr hs hb he hne
    exact Test_of_hash_ok b p hs (hash_of_ok b p hr hs hb he hne)
  · intro r h
    cases hh : hash b p with
    | error err1 =>
      rw [Test_of_hash_error b p err1 hh] at h
      cases h
    | ok hs =>
      obtain ⟨hr, hb, he, -⟩ := hash_ok_inv b p hs hh
      refine ⟨hr, hs, hb, he, ?_⟩
      rw [Test_of_hash_ok b p hs hh] at h
      cases hx : TestHashes b hs with
      | none => rw [hx] at h; cases h
      | some c => rw [hx] at h; cases h; rfl
  · intro hm
    cases hh : hash b p with
    | error err1 => exact ⟨true, some err1, Test_of_hash_error b p err1 hh⟩
    | ok hs =>
      refine ⟨hs.all (fun h => Int.testBit b.value (slot b.maxBits h)), none, ?_⟩
      rw [Test_of_hash_ok b p hs hh, TestHashes_eq b hm]
      rfl

/-- C14: `TestHashes` is the conjunction of `TestHash`. On a filter with a
capacity (as every constructor gives) and for every list of hashes, the empty
and the one-element list included, `TestHashes(hs...)` returns, and returns
true if and only if `TestHash(h)` is true for every `h` of the list; and
after `AddHashes(hs...)` on that filter `TestHashes(hs...)` returns true. -/
theorem TestHashes_conjunction (b : BloomFilter α ε) (hm : b.maxBits ≠ 0)
    (hs : List (List Byte)) :
    (∃ r : Bool, TestHashes b hs = some r ∧
      (r = true ↔ ∀ h ∈ hs, TestHash b h = some true)) ∧
    TestHashes b [] = some true ∧
    (∀ h : List Byte, TestHashes b [h] = TestHash b h) ∧
    ∃ f : BloomFilter α ε, AddHashes b hs = some f ∧ TestHashes f hs = some true := by
  refine ⟨⟨_, TestHashes_eq b hm hs, ?_⟩, rfl, TestHashes_singleton b, ?_⟩
  · rw [List.all_eq_true]
    constructor
    · intro h x hx
      rw [TestHash_eq b x hm, h x hx]
    · intro h x hx
      have := h x hx
      rw [TestHash_eq b x hm] at this
      exact Option.some.inj this
  · refine ⟨_, AddHashes_eq hs b hm, ?_⟩
    obtain ⟨h1, -, -, h4⟩ := AddHashes_grows b _ hm hs (AddHashes_eq hs b hm)
    rw [TestHashes_eq _ (by rw [h1]; exact hm)]
    congr 1
    rw [List.all_eq_true]
    intro x hx
    exact h4 x hx

/-- C14 at a concrete input: capacity 16, two hashes. -/
theorem TestHashes_conjunction_witness :
    (New 16 none : BloomFilter Unit Unit).maxBits ≠ 0 ∧
    (∃ r : Bool,
      TestHashes (New 16 none : BloomFilter Unit Unit)
        [[0x05, 0x00, 0x00, 0x00], [0x06]] = some r ∧
      (r = true ↔ ∀ h ∈ [[(0x05 : Byte), 0x00, 0x00, 0x00], [0x06]],
        TestHash (New 16 none : BloomFilter Unit Unit) h = some true)) ∧
    TestHashes (New 16 none : BloomFilter Unit Unit) [] = some true ∧
    (∀ h : List Byte, TestHashes (New 16 none : BloomFilter Unit Unit) [h] =
      TestHash (New 16 none : BloomFilter Unit Unit) h) ∧
    ∃ f : BloomFilter Unit Unit,
      AddHashes (New 16 none) [[0x05, 0x00, 0x00, 0x00], [0x06]] = some f ∧
        TestHashes f [[0x05, 0x00, 0x00, 0x00], [0x06]] = some true :=
  ⟨by decide, TestHashes_conjunction (New 16 none) (by decide) _⟩

/-- C15: construction. `New(0, hasher).MaxBits()` is `100000007`, and for
`maxBits ≠ 0`, `New(maxBits, hasher).MaxBits()` is `maxBits`; the new filter
keeps the hasher and is empty: its bit array is zero, `Bytes()` is the empty
buffer and `TestHash(h)` returns false for every hash; and
`NewFromInt(maxBits, hasher, nil)` and `NewFromBytes(maxBits, hasher, [])` are
the same filter as `New(maxBits, hasher)`. -/
theorem construction (maxBits : Int) (hasher : Option (Hasher α ε)) :
    MaxBits (New 0 hasher) = 100000007 ∧
    (maxBits ≠ 0 → MaxBits (New maxBits hasher) = maxBits) ∧
    (New maxBits hasher).value = 0 ∧
    (New maxBits hasher).hasher = hasher ∧
    Bytes (New maxBits hasher) = [] ∧
    (∀ h : List Byte, TestHash (New maxBits hasher) h = some false) ∧
    NewFromInt maxBits hasher none = New maxBits hasher ∧
    NewFromBytes maxBits hasher [] = New maxBits hasher := by
  refine ⟨rfl, ?_, rfl, rfl, rfl, ?_, rfl, rfl⟩
  · intro h
    unfold MaxBits New initializeFilter
    simp only []
    rw [if_neg h]
  · intro h
    rw [TestHash_eq _ h (New_maxBits_ne_zero maxBits hasher)]
    congr 1
    exact testBit_zero_left _

theorem New_maxBits_of_ne_zero (maxBits : Int) (h : maxBits ≠ 0)
    (hasher : Option (Hasher α ε)) : (New maxBits hasher).maxBits = maxBits := by
  unfold New initializeFilter
  simp only []
  rw [if_neg h]

theorem slot_cast (m : Int) (hm : 0 < m) (hash : List Byte) :
    (slot m hash : Int) = leValue (truncateHash 4 hash) % m := by
  rw [← tmod_leValue_eq_slot, Int.tmod_eq_emod (leValue_range _).1 (by omega)]

theorem slot_of_multiple (m k : Int) (hm : 0 < m) (hk : 1 ≤ k) (a h : List Byte)
    (e : slot (k * m) a = slot (k * m) h) : slot m a = slot m h := by
  have hkm : 0 < k * m := Int.mul_pos (by omega) hm
  have e1 : (slot (k * m) a : Int) = (slot (k * m) h : Int) := by rw [e]
  rw [slot_cast _ hkm, slot_cast _ hkm] at e1
  have e2 := congrArg (fun x : Int => x % m) e1
  simp only [] at e2
  rw [Int.emod_emod_of_dvd _ (Dvd.intro_left k rfl),
    Int.emod_emod_of_dvd _ (Dvd.intro_left k rfl)] at e2
  have e3 : (slot m a : Int) = (slot m h : Int) := by
    rw [slot_cast _ hm, slot_cast _ hm]
    exact e2
  exact_mod_cast e3

/-- C16: capacity monotonicity over multiples. For `m > 0`, a multiplier
`k ≥ 1` and a list `hs` of hashes, the `AddHash` calls return a filter on
`New(k*m, nil)` and on `New(m, nil)`; every hash for which `TestHash` is true
on the larger filter is one for which it is true on the smaller; hence, for
every list of test hashes, the number of positives with capacity `k*m` is at
most the number with capacity `m`. -/
theorem capacity_monotone (m k : Int) (hm : 0 < m) (hk : 1 ≤ k) (hs : List (List Byte)) :
    ∃ fk fm : BloomFilter α ε,
      AddHashes (New (k * m) none) hs = some fk ∧
      AddHashes (New m none) hs = some fm ∧
      (∀ h : List Byte, TestHash fk h = some true → TestHash fm h = some true) ∧
      ∀ tests : List (List Byte),
        tests.countP (fun h => decide (TestHash fk h = some true)) ≤
          tests.countP (fun h => decide (TestHash fm h = some true)) := by
  have hkm : 0 < k * m := Int.mul_pos (by omega) hm
  have ek : (New (k * m) (none : Option (Hasher α ε))).maxBits = k * m := by
    exact New_maxBits_of_ne_zero _ (by omega) _
  have em : (New m (none : Option (Hasher α ε))).maxBits = m := by
    exact New_maxBits_of_ne_zero _ (by omega) _
  obtain ⟨fk, e1, k1, -, k3⟩ := AddHashes_spec hs (New (k * m) (none : Option (Hasher α ε)))
    (by rw [ek]; omega)
  obtain ⟨fm, e2, m1, -, m3⟩ := AddHashes_spec hs (New m (none : Option (Hasher α ε)))
    (by rw [em]; omega)
  have mono : ∀ h : List Byte, TestHash fk h = some true → TestHash fm h = some true := by
    intro h hk1
    rw [TestHash_eq fk h (by rw [k1, ek]; omega), k3, testBit_foldl_lor] at hk1
    rw [TestHash_eq fm h (by rw [m1, em]; omega), m3, testBit_foldl_lor]
    have hz : ∀ i, Int.testBit (New (k * m) (none : Option (Hasher α ε))).value i = false :=
      testBit_zero_left
    have hk2 := Option.some.inj hk1
    rw [hz, Bool.false_or, List.any_eq_true] at hk2
    obtain ⟨a, ha, hsl⟩ := hk2
    congr 1
    rw [Bool.or_eq_true, List.any_eq_true]
    right
    refine ⟨a, ha, ?_⟩
    simp only [decide_eq_true_eq] at hsl ⊢
    rw [k1, ek] at hsl
    rw [m1, em]
    exact slot_of_multiple m k hm hk a h hsl
  refine ⟨fk, fm, e1, e2, mono, ?_⟩
  intro tests
  apply List.countP_mono_left
  intro x _ hx
  simp only [decide_eq_true_eq] at hx ⊢
  exact mono x hx

/-- C16 at a concrete input: capacities 32 and 16, one hash added. -/
theorem capacity_monotone_witness :
    (0 : Int) < 16 ∧ (1 : Int) ≤ 2 ∧
    ∃ fk fm : BloomFilter Unit Unit,
      AddHashes (New (2 * 16) none) [[0x05, 0x00, 0x00, 0x00]] = some fk ∧
      AddHashes (New 16 none) [[0x05, 0x00, 0x00, 0x00]] = some fm ∧
      (∀ h : List Byte, TestHash fk h = some true → TestHash fm h = some true) ∧
      ∀ tests : List (List Byte),
        tests.countP (fun h => decide (TestHash fk h = some true)) ≤
          tests.countP (fun h => decide (TestHash fm h = some true)) :=
  ⟨by decide, by decide, capacity_monotone 16 2 (by decide) (by decide) _⟩

theorem testBit_lt_of_range (x : Int) (M i : Nat) (h0 : 0 ≤ x) (h1 : x < 2 ^ M)
    (hb : Int.testBit x i = true) : i < M := by
  obtain ⟨n, rfl⟩ := Int.eq_ofNat_of_zero_le h0
  have hn : n < 2 ^ M := by exact_mod_cast h1
  by_contra hlt
  have : n < 2 ^ i := lt_of_lt_of_le hn (Nat.pow_le_pow_right (by decide) (by omega))
  have hf : Nat.testBit n i = false := Nat.testBit_lt_two_pow this
  have ht : Nat.testBit n i = true := hb
  rw [hf] at ht
  cases ht

theorem Add_error_state (b b1 : BloomFilter α ε) (p : α) (err : Error ε)
    (h : Add b p = some (b1, some err)) : b1 = b := by
  cases hh : hash b p with
  | error err1 =>
    rw [Add_of_hash_error b p err1 hh] at h
    cases h
    rfl
  | ok hs =>
    rw [Add_of_hash_ok b p hs hh] at h
    cases hx : AddHashes b hs with
    | none => rw [hx] at h; cases h
    | some c => rw [hx] at h; cases h

theorem AddHashes_below (b c : BloomFilter α ε) (hm : 0 < b.maxBits)
    (hs : List (List Byte)) (h : AddHashes b hs = some c)
    (h0 : 0 ≤ b.value)
    (hb : ∀ i : Nat, Int.testBit b.value i = true → i < b.maxBits.toNat) :
    c.maxBits = b.maxBits ∧ c.hasher = b.hasher ∧ 0 ≤ c.value ∧
      ∀ i : Nat, Int.testBit c.value i = true → i < b.maxBits.toNat := by
  obtain ⟨f, e, h1, h2, h3⟩ := AddHashes_spec hs b (by omega)
  rw [h] at e
  cases e
  refine ⟨h1, h2, ?_, ?_⟩
  · rw [h3]
    exact foldl_lor_nonneg _ _ _ h0
  · intro i hi
    rw [h3, testBit_foldl_lor, Bool.or_eq_true, List.any_eq_true] at hi
    rcases hi with hi | ⟨x, -, hx⟩
    · exact hb i hi
    · simp only [decide_eq_true_eq] at hx
      rw [← hx]
      exact slot_lt _ hm x

theorem applyCall_below (b : BloomFilter α ε) (hm : 0 < b.maxBits) (c : Call α)
    (hl : loadsBelow b.maxBits c = true) (h0 : 0 ≤ b.value)
    (hb : ∀ i : Nat, Int.testBit b.value i = true → i < b.maxBits.toNat) :
    ∃ f : BloomFilter α ε, applyCall b c = some f ∧ f.maxBits = b.maxBits ∧
      f.hasher = b.hasher ∧ 0 ≤ f.value ∧
      ∀ i : Nat, Int.testBit f.value i = true → i < b.maxBits.toNat := by
  have hne : b.maxBits ≠ 0 := by omega
  cases c with
  | add v =>
    rcases Add_total b hne v with ⟨b1, h⟩ | ⟨err, h⟩
    · refine ⟨b1, ?_, ?_⟩
      · show (match Add b v with
          | none => none
          | some (b1, _) => some b1) = some b1
        rw [h]
      · obtain ⟨hs, -, e⟩ := Add_ok b b1 v h
        exact AddHashes_below b b1 hm hs e h0 hb
    · refine ⟨b, ?_, rfl, rfl, h0, hb⟩
      show (match Add b v with
        | none => none
        | some (b1, _) => some b1) = some b
      rw [h]
  | addHash x =>
    have e : AddHashes b [x] = some _ := AddHashes_eq [x] b hne
    refine ⟨_, ?_, AddHashes_below b _ hm [x] e h0 hb⟩
    show AddHash b x = _
    rw [← AddHashes_singleton]
    exact e
  | addHashes hs =>
    exact ⟨_, AddHashes_eq hs b hne, AddHashes_below b _ hm hs (AddHashes_eq hs b hne) h0 hb⟩
  | setBytes buf =>
    refine ⟨SetBytes b buf, rfl, ?_⟩
    unfold SetBytes
    split_ifs with hlen
    · exact ⟨rfl, rfl, h0, hb⟩
    · have hl1 : bigSetBytes buf < 2 ^ b.maxBits.toNat := by
        simpa [loadsBelow] using hl
      have hnn : 0 ≤ bigSetBytes buf := by
        rw [bigSetBytes_eq]
        exact Int.ofNat_nonneg _
      exact ⟨rfl, rfl, hnn, fun i hi => testBit_lt_of_range _ _ i hnn hl1 hi⟩
  | setInt value =>
    refine ⟨SetInt b value, rfl, rfl, rfl, ?_⟩
    cases value with
    | none =>
      refine ⟨le_refl _, ?_⟩
      intro i hi
      have hz : Int.testBit 0 i = false := testBit_zero_left i
      have hi1 : Int.testBit 0 i = true := hi
      rw [hz] at hi1
      cases hi1
    | some x =>
      have hl1 : 0 ≤ x ∧ x < 2 ^ b.maxBits.toNat := by
        simpa [loadsBelow] using hl
      exact ⟨hl1.1, fun i hi => testBit_lt_of_range x _ i hl1.1 hl1.2 hi⟩

theorem applyCalls_below (calls : List (Call α)) (b : BloomFilter α ε) (hm : 0 < b.maxBits)
    (hl : ∀ c ∈ calls, loadsBelow b.maxBits c = true) (h0 : 0 ≤ b.value)
    (hb : ∀ i : Nat, Int.testBit b.value i = true → i < b.maxBits.toNat) :
    ∃ f : BloomFilter α ε, applyCalls b calls = some f ∧ f.maxBits = b.maxBits ∧
      f.hasher = b.hasher ∧ 0 ≤ f.value ∧
      ∀ i : Nat, Int.testBit f.value i = true → i < b.maxBits.toNat := by
  induction calls generalizing b with
  | nil => exact ⟨b, rfl, rfl, rfl, h0, hb⟩
  | cons c cs ih =>
    obtain ⟨d, e, d1, d2, d3, d4⟩ :=
      applyCall_below b hm c (hl c (List.mem_cons_self _ _)) h0 hb
    obtain ⟨f, e2, f1, f2, f3, f4⟩ := ih d (by rw [d1]; exact hm)
      (fun c1 hc1 => by rw [d1]; exact hl c1 (List.mem_cons_of_mem _ hc1)) d3
      (by rw [d1]; exact d4)
    refine ⟨f, ?_, f1.trans d1, f2.trans d2, f3, ?_⟩
    · unfold applyCalls
      rw [e]
      exact e2
    · rw [d1] at f4
      exact f4

/-- C17 as stated fails: on a filter of capacity 8, `SetBytes([0x01, 0x00])`
sets bit 8, and `SetInt(-1)` sets bit 8 as well (every bit of `-1` is set);
so do `NewFromBytes(8, nil, [0x01, 0x00])` and `NewFromInt(8, nil, 256)`. The
index 8 is not below `maxBits = 8`. -/
theorem loaded_bit_outside_capacity :
    (∃ f : BloomFilter Unit Unit,
      applyCalls (New 8 none) [Call.setBytes [0x01, 0x00]] = some f ∧
        Int.testBit f.value 8 = true ∧ ¬ ((8 : Int) < MaxBits f)) ∧
    (∃ f : BloomFilter Unit Unit,
      applyCalls (New 8 none) [Call.setInt (some (-1))] = some f ∧
        Int.testBit f.value 8 = true ∧ ¬ ((8 : Int) < MaxBits f)) ∧
    Int.testBit (NewFromBytes 8 none [0x01, 0x00] : BloomFilter Unit Unit).value 8 = true ∧
    Int.testBit (NewFromInt 8 none (some 256) : BloomFilter Unit Unit).value 8 = true ∧
    MaxBits (NewFromBytes 8 none [0x01, 0x00] : BloomFilter Unit Unit) = 8 ∧
    MaxBits (NewFromInt 8 none (some 256) : BloomFilter Unit Unit) = 8 :=
  ⟨⟨_, rfl, by decide, by decide⟩, ⟨_, rfl, by decide, by decide⟩, by decide, by decide,
    by decide, by decide⟩

/-- C17 as the code does it. `SetBytes` and `SetInt` load the given integer
unchecked. From `New(maxBits, hasher)` with `maxBits > 0`, every sequence of
`AddHash`, `AddHashes`, `Add`, `SetBytes` and `SetInt` calls in which each
`SetBytes` buffer and each `SetInt` value stands for an integer in
`[0, 2^maxBits)` returns a filter with the same `maxBits`, and every set bit
of its bit array lies at an index `i` with `0 ≤ i < maxBits`. `NewFromBytes`
and `NewFromInt` are `New` followed by `SetBytes`, respectively `SetInt`, so
the same holds from them. -/
theorem bits_below_capacity (maxBits : Int) (hm : 0 < maxBits)
    (hasher : Option (Hasher α ε)) (calls : List (Call α))
    (hl : ∀ c ∈ calls, loadsBelow maxBits c = true) :
    (∃ f : BloomFilter α ε,
      applyCalls (New maxBits hasher) calls = some f ∧ MaxBits f = maxBits ∧
        ∀ i : Nat, Int.testBit f.value i = true → (0 : Int) ≤ i ∧ (i : Int) < maxBits) ∧
    (∀ bytes : List Byte,
      NewFromBytes maxBits hasher bytes = SetBytes (New maxBits hasher) bytes ∧
      applyCalls (NewFromBytes maxBits hasher bytes) calls =
        applyCalls (New maxBits hasher) (Call.setBytes bytes :: calls)) ∧
    (∀ value : Option Int,
      NewFromInt maxBits hasher value = SetInt (New maxBits hasher) value ∧
      applyCalls (NewFromInt maxBits hasher value) calls =
        applyCalls (New maxBits hasher) (Call.setInt value :: calls)) := by
  have em : (New maxBits hasher).maxBits = maxBits :=
    New_maxBits_of_ne_zero maxBits (by omega) hasher
  refine ⟨?_, fun _ => ⟨rfl, rfl⟩, fun _ => ⟨rfl, rfl⟩⟩
  obtain ⟨f, e, f1, -, -, f4⟩ := applyCalls_below calls (New maxBits hasher)
    (by rw [em]; exact hm) (by rw [em]; exact hl) (le_refl _)
    (fun i hi => by
      have hz : Int.testBit 0 i = false := testBit_zero_left i
      have hi1 : Int.testBit 0 i = true := hi
      rw [hz] at hi1
      cases hi1)
  refine ⟨f, e, f1.trans em, ?_⟩
  intro i hi
  have := f4 i hi
  rw [em] at this
  omega

/-- C17 as the code does it, at a concrete input: capacity 16, a buffer within
the capacity loaded, then a hash and a payload added, then the state reset. -/
theorem bits_below_capacity_witness :
    (0 : Int) < 16 ∧
    (∀ c ∈ [Call.setBytes [0x20], Call.addHash [0x05, 0x00, 0x00, 0x00], Call.add (),
      Call.setInt none], loadsBelow 16 c = true) ∧
    ((∃ f : BloomFilter Unit Unit,
      applyCalls (New 16 (some fiveHasher))
          [Call.setBytes [0x20], Call.addHash [0x05, 0x00, 0x00, 0x00], Call.add (),
            Call.setInt none] = some f ∧
        MaxBits f = 16 ∧
        ∀ i : Nat, Int.testBit f.value i = true → (0 : Int) ≤ i ∧ (i : Int) < 16) ∧
    (∀ bytes : List Byte,
      NewFromBytes 16 (some fiveHasher) bytes = SetBytes (New 16 (some fiveHasher)) bytes ∧
      applyCalls (NewFromBytes 16 (some fiveHasher) bytes)
          [Call.setBytes [0x20], Call.addHash [0x05, 0x00, 0x00, 0x00], Call.add (),
            Call.setInt none] =
        applyCalls (New 16 (some fiveHasher))
          (Call.setBytes bytes ::
            [Call.setBytes [0x20], Call.addHash [0x05, 0x00, 0x00, 0x00], Call.add (),
              Call.setInt none])) ∧
    (∀ value : Option Int,
      NewFromInt 16 (some fiveHasher) value = SetInt (New 16 (some fiveHasher)) value ∧
      applyCalls (NewFromInt 16 (some fiveHasher) value)
          [Call.setBytes [0x20], Call.addHash [0x05, 0x00, 0x00, 0x00], Call.add (),
            Call.setInt none] =
        applyCalls (New 16 (some fiveHasher))
          (Call.setInt value ::
            [Call.setBytes [0x20], Call.addHash [0x05, 0x00, 0x00, 0x00], Call.add (),
              Call.setInt none]))) :=
  ⟨by decide, by decide,
    bits_below_capacity 16 (by decide) (some fiveHasher) _ (by decide)⟩

theorem bitIndex_eq_iff (b : BloomFilter α ε) (hm : b.maxBits ≠ 0) (h1 h2 : List Byte) :
    bitIndex b h1 = bitIndex b h2 ↔ slot b.maxBits h1 = slot b.maxBits h2 := by
  rw [bitIndex_eq_slot b h1 hm, bitIndex_eq_slot b h2 hm]
  constructor
  · intro e
    have := Option.some.inj e
    exact_mod_cast this
  · intro e
    rw [e]

theorem TestHash_true_iff (b : BloomFilter α ε) (hm : b.maxBits ≠ 0) (h : List Byte) :
    TestHash b h = some true ↔ Int.testBit b.value (slot b.maxBits h) = true := by
  rw [TestHash_eq b h hm]
  constructor
  · intro e; exact Option.some.inj e
  · intro e; rw [e]

/-- C18: `AddHash` sets exactly one bit and clears none. On a filter with a
capacity (as every constructor gives), `AddHash(h)` returns a filter with the
same `maxBits` and hasher in which bit `i` is set if and only if it was set
before or `i = bitIndex(h)`; hence `TestHash(h')` is true afterwards iff it
was true before or `bitIndex(h') = bitIndex(h)`. Through any sequence of
successful `AddHash` / `AddHashes` / `Add` calls `maxBits` is unchanged and a
`TestHash` result that was true stays true, and an `Add` that returns an
error leaves the filter as it was. -/
theorem AddHash_sets_one_bit (b : BloomFilter α ε) (hm : b.maxBits ≠ 0) (h : List Byte) :
    ∃ (b1 : BloomFilter α ε) (k : Nat),
      AddHash b h = some b1 ∧ bitIndex b h = some (k : Int) ∧
      MaxBits b1 = MaxBits b ∧ b1.hasher = b.hasher ∧
      (∀ i : Nat, Int.testBit b1.value i = true ↔ (Int.testBit b.value i = true ∨ i = k)) ∧
      (∀ h2 : List Byte, TestHash b1 h2 = some true ↔
        (TestHash b h2 = some true ∨ bitIndex b h2 = bitIndex b h)) ∧
      (∀ (calls : List (Grow α)) (c : BloomFilter α ε), growAllOk b calls = some c →
        MaxBits c = MaxBits b ∧
          ∀ h2 : List Byte, TestHash b h2 = some true → TestHash c h2 = some true) ∧
      (∀ (p : α) (c : BloomFilter α ε) (err : Error ε),
        Add b p = some (c, some err) → c = b) := by
  have hbit : ∀ i : Nat,
      Int.testBit (Int.lor b.value (2 ^ slot b.maxBits h)) i = true ↔
        (Int.testBit b.value i = true ∨ i = slot b.maxBits h) := by
    intro i
    rw [Int.testBit_lor, testBit_two_pow, Bool.or_eq_true, decide_eq_true_eq]
    constructor
    · rintro (h1 | h1)
      · exact Or.inl h1
      · exact Or.inr h1.symm
    · rintro (h1 | h1)
      · exact Or.inl h1
      · exact Or.inr h1.symm
  refine ⟨_, slot b.maxBits h, AddHash_eq b h hm, bitIndex_eq_slot b h hm, rfl, rfl, hbit,
    ?_, ?_, ?_⟩
  · intro h2
    rw [TestHash_true_iff _ (show (BloomFilter.mk (Int.lor b.value (2 ^ slot b.maxBits h))
      b.maxBits b.hasher).maxBits ≠ 0 from hm), TestHash_true_iff b hm, bitIndex_eq_iff b hm]
    exact hbit _
  · intro calls c hc
    obtain ⟨c1, -, c3⟩ := growAllOk_grows calls b c hm hc
    refine ⟨c1, ?_⟩
    intro h2 ht
    rw [TestHash_true_iff b hm] at ht
    rw [TestHash_true_iff c (by rw [c1]; exact hm), c1]
    exact c3 _ ht
  · intro p c err hadd
    exact Add_error_state b c p err hadd

/-- C18 at a concrete input: capacity 16 and the hash `05 00 00 00`. -/
theorem AddHash_sets_one_bit_witness :
    (New 16 (some fiveHasher)).maxBits ≠ 0 ∧
    ∃ (b1 : BloomFilter Unit Unit) (k : Nat),
      AddHash (New 16 (some fiveHasher)) [0x05, 0x00, 0x00, 0x00] = some b1 ∧
      bitIndex (New 16 (some fiveHasher)) [0x05, 0x00, 0x00, 0x00] = some (k : Int) ∧
      MaxBits b1 = MaxBits (New 16 (some fiveHasher)) ∧
      b1.hasher = (New 16 (some fiveHasher)).hasher ∧
      (∀ i : Nat, Int.testBit b1.value i = true ↔
        (Int.testBit (New 16 (some fiveHasher)).value i = true ∨ i = k)) ∧
      (∀ h2 : List Byte, TestHash b1 h2 = some true ↔
        (TestHash (New 16 (some fiveHasher)) h2 = some true ∨
          bitIndex (New 16 (some fiveHasher)) h2 =
            bitIndex (New 16 (some fiveHasher)) [0x05, 0x00, 0x00, 0x00])) ∧
      (∀ (calls : List (Grow Unit)) (c : BloomFilter Unit Unit),
        growAllOk (New 16 (some fiveHasher)) calls = some c →
        MaxBits c = MaxBits (New 16 (some fiveHasher)) ∧
          ∀ h2 : List Byte, TestHash (New 16 (some fiveHasher)) h2 = some true →
            TestHash c h2 = some true) ∧
      (∀ (p : Unit) (c : BloomFilter Unit Unit) (err : Error Unit),
        Add (New 16 (some fiveHasher)) p = some (c, some err) →
          c = New 16 (some fiveHasher)) :=
  ⟨by decide, AddHash_sets_one_bit (New 16 (some fiveHasher)) (by decide) _⟩

theorem leValue_four (b0 b1 b2 b3 : Byte) :
    leValue [b0, b1, b2, b3] =
      (b0.val : Int) + (b1.val : Int) * 2 ^ 8 + (b2.val : Int) * 2 ^ 16 +
        (b3.val : Int) * 2 ^ 24 := by
  simp [leValue]

/-- C19: the index arithmetic with Go's 64-bit `int`. For every hash, with
normalized form `b0 b1 b2 b3`, the value `v` that `bitIndex` assembles with
`|` and `<<` is `b0 + b1*2^8 + b2*2^16 + b3*2^24`; it satisfies
`0 ≤ v < 2^32`, so the test `v < 0` is false and the negation is never done;
and for `maxBits > 0`, `bitIndex(hash)` is `v mod maxBits`, the unsigned
value reduced, also when `b3 ≥ 0x80` and for the form `00 00 00 80`, which
gives `2^31 mod maxBits`. -/
theorem bitIndex_unsigned (b : BloomFilter α ε) (hm : 0 < b.maxBits) (hash : List Byte) :
    (∃ b0 b1 b2 b3 : Byte,
      truncateHash 4 hash = [b0, b1, b2, b3] ∧
      bor (bor (bor (bor 0 (b0.val : Int)) (shl (b1.val : Int) 8)) (shl (b2.val : Int) 16))
          (shl (b3.val : Int) 24) =
        (b0.val : Int) + (b1.val : Int) * 2 ^ 8 + (b2.val : Int) * 2 ^ 16 +
          (b3.val : Int) * 2 ^ 24 ∧
      (0 : Int) ≤ (b0.val : Int) + (b1.val : Int) * 2 ^ 8 + (b2.val : Int) * 2 ^ 16 +
          (b3.val : Int) * 2 ^ 24 ∧
      (b0.val : Int) + (b1.val : Int) * 2 ^ 8 + (b2.val : Int) * 2 ^ 16 +
          (b3.val : Int) * 2 ^ 24 < 2 ^ 32 ∧
      ¬ ((b0.val : Int) + (b1.val : Int) * 2 ^ 8 + (b2.val : Int) * 2 ^ 16 +
          (b3.val : Int) * 2 ^ 24 < 0) ∧
      bitIndex b hash =
        some (((b0.val : Int) + (b1.val : Int) * 2 ^ 8 + (b2.val : Int) * 2 ^ 16 +
          (b3.val : Int) * 2 ^ 24) % b.maxBits)) ∧
    bitIndex b [0x00, 0x00, 0x00, 0x80] = some (2 ^ 31 % b.maxBits) := by
  have key : ∀ hash : List Byte, bitIndex b hash =
      some (leValue (truncateHash 4 hash) % b.maxBits) := by
    intro hash
    rw [bitIndex_eq b hash (by omega),
      Int.tmod_eq_emod (leValue_range _).1 (by omega)]
  constructor
  · obtain ⟨b0, b1, b2, b3, e⟩ := truncateHash_cases hash
    have r := leValue_range [b0, b1, b2, b3]
    rw [leValue_four] at r
    refine ⟨b0, b1, b2, b3, e, ?_, r.1, r.2, not_lt.mpr r.1, ?_⟩
    · rw [assemble_eq, leValue_four]
    · rw [key hash, e, leValue_four]
  · rw [key]
    rfl

/-- C19 at a concrete input: capacity 16 and the hash `01 00 00 80`. -/
theorem bitIndex_unsigned_witness :
    0 < (New 16 none : BloomFilter Unit Unit).maxBits ∧
    bitIndex (New 16 none : BloomFilter Unit Unit) [0x01, 0x00, 0x00, 0x80] = some 1 ∧
    (∃ b0 b1 b2 b3 : Byte,
      truncateHash 4 [0x01, 0x00, 0x00, 0x80] = [b0, b1, b2, b3] ∧
      bor (bor (bor (bor 0 (b0.val : Int)) (shl (b1.val : Int) 8)) (shl (b2.val : Int) 16))
          (shl (b3.val : Int) 24) =
        (b0.val : Int) + (b1.val : Int) * 2 ^ 8 + (b2.val : Int) * 2 ^ 16 +
          (b3.val : Int) * 2 ^ 24 ∧
      (0 : Int) ≤ (b0.val : Int) + (b1.val : Int) * 2 ^ 8 + (b2.val : Int) * 2 ^ 16 +
          (b3.val : Int) * 2 ^ 24 ∧
      (b0.val : Int) + (b1.val : Int) * 2 ^ 8 + (b2.val : Int) * 2 ^ 16 +
          (b3.val : Int) * 2 ^ 24 < 2 ^ 32 ∧
      ¬ ((b0.val : Int) + (b1.val : Int) * 2 ^ 8 + (b2.val : Int) * 2 ^ 16 +
          (b3.val : Int) * 2 ^ 24 < 0) ∧
      bitIndex (New 16 none : BloomFilter Unit Unit) [0x01, 0x00, 0x00, 0x80] =
        some (((b0.val : Int) + (b1.val : Int) * 2 ^ 8 + (b2.val : Int) * 2 ^ 16 +
          (b3.val : Int) * 2 ^ 24) % (New 16 none : BloomFilter Unit Unit).maxBits)) ∧
    bitIndex (New 16 none : BloomFilter Unit Unit) [0x00, 0x00, 0x00, 0x80] =
      some (2 ^ 31 % (New 16 none : BloomFilter Unit Unit).maxBits) :=
  ⟨by decide, by decide,
    bitIndex_unsigned (New 16 none) (by decide) [0x01, 0x00, 0x00, 0x80]⟩

theorem int_eq_of_testBit_eq (x y : Int) (h : ∀ i : Nat, Int.testBit x i = Int.testBit y i) :
    x = y := by
  have small : ∀ m n : Nat, Nat.testBit m (m + n) = false := fun m n =>
    Nat.testBit_lt_two_pow
      (lt_of_lt_of_le (Nat.lt_two_pow m) (Nat.pow_le_pow_right (by decide) (by omega)))
  cases x with
  | ofNat m =>
    cases y with
    | ofNat n =>
      have : m = n := Nat.eq_of_testBit_eq h
      rw [this]
    | negSucc n =>
      exfalso
      have e : Nat.testBit m (m + n) = !Nat.testBit n (m + n) := h (m + n)
      have e2 : Nat.testBit n (n + m) = false := small n m
      rw [small m n, Nat.add_comm m n, e2] at e
      cases e
  | negSucc m =>
    cases y with
    | ofNat n =>
      exfalso
      have e : (!Nat.testBit m (m + n)) = Nat.testBit n (m + n) := h (m + n)
      have e2 : Nat.testBit n (n + m) = false := small n m
      rw [small m n, Nat.add_comm m n, e2] at e
      cases e
    | negSucc n =>
      have : m = n := by
        apply Nat.eq_of_testBit_eq
        intro i
        have e : (!Nat.testBit m i) = !Nat.testBit n i := h i
        cases h1 : Nat.testBit m i <;> cases h2 : Nat.testBit n i <;> simp_all
      rw [this]

theorem lor_two_pow_comm (v : Int) (a c : Nat) :
    Int.lor (Int.lor v (2 ^ a)) (2 ^ c) = Int.lor (Int.lor v (2 ^ c)) (2 ^ a) := by
  apply int_eq_of_testBit_eq
  intro i
  simp only [Int.testBit_lor]
  rw [Bool.or_assoc, Bool.or_assoc, Bool.or_comm (Int.testBit (2 ^ a) i)]

theorem lor_two_pow_idem (v : Int) (a : Nat) :
    Int.lor (Int.lor v (2 ^ a)) (2 ^ a) = Int.lor v (2 ^ a) := by
  apply int_eq_of_testBit_eq
  intro i
  simp only [Int.testBit_lor]
  rw [Bool.or_assoc, Bool.or_self]

theorem foldl_lor_of_same_set (m : Int) (hs1 hs2 : List (List Byte)) (v : Int)
    (h : ∀ x, x ∈ hs1 ↔ x ∈ hs2) :
    hs1.foldl (fun v h => Int.lor v (2 ^ slot m h)) v =
      hs2.foldl (fun v h => Int.lor v (2 ^ slot m h)) v := by
  apply int_eq_of_testBit_eq
  intro i
  rw [testBit_foldl_lor, testBit_foldl_lor]
  congr 1
  rw [Bool.eq_iff_iff, List.any_eq_true, List.any_eq_true]
  constructor
  · rintro ⟨x, hx, e⟩
    exact ⟨x, (h x).1 hx, e⟩
  · rintro ⟨x, hx, e⟩
    exact ⟨x, (h x).2 hx, e⟩

/-- C20: `AddHash` is idempotent and commutative on the filter state. On a
filter with a capacity (as every constructor gives): `AddHash(h1)` followed
by `AddHash(h2)` gives the same filter as `AddHash(h2)` followed by
`AddHash(h1)`; `AddHash(h1)` applied twice gives the same filter as applied
once; hence two filters with the same `maxBits` and the same bit array (two
new filters, for one) to which the same set of hashes is added, in any order
and with any repetitions, have equal bit arrays and equal `Bytes()`. -/
theorem AddHash_idempotent_commutative (b : BloomFilter α ε) (hm : b.maxBits ≠ 0)
    (h1 h2 : List Byte) :
    (∃ f1 f2 f : BloomFilter α ε,
      AddHash b h1 = some f1 ∧ AddHash f1 h2 = some f ∧
      AddHash b h2 = some f2 ∧ AddHash f2 h1 = some f) ∧
    (∃ f : BloomFilter α ε, AddHash b h1 = some f ∧ AddHash f h1 = some f) ∧
    (∀ (c : BloomFilter α ε) (hs1 hs2 : List (List Byte)),
      c.maxBits = b.maxBits → c.value = b.value → (∀ x, x ∈ hs1 ↔ x ∈ hs2) →
        ∃ f1 f2 : BloomFilter α ε,
          AddHashes b hs1 = some f1 ∧ AddHashes c hs2 = some f2 ∧
            f1.value = f2.value ∧ Bytes f1 = Bytes f2) := by
  refine ⟨?_, ?_, ?_⟩
  · refine ⟨_, _, _, AddHash_eq b h1 hm, AddHash_eq _ h2 hm, AddHash_eq b h2 hm, ?_⟩
    rw [AddHash_eq _ h1 (show (BloomFilter.mk (Int.lor b.value (2 ^ slot b.maxBits h2))
      b.maxBits b.hasher).maxBits ≠ 0 from hm)]
    congr 1
    exact filter_eq _ _ (lor_two_pow_comm b.value _ _) rfl rfl
  · refine ⟨_, AddHash_eq b h1 hm, ?_⟩
    rw [AddHash_eq _ h1 (show (BloomFilter.mk (Int.lor b.value (2 ^ slot b.maxBits h1))
      b.maxBits b.hasher).maxBits ≠ 0 from hm)]
    congr 1
    exact filter_eq _ _ (lor_two_pow_idem b.value _) rfl rfl
  · intro c hs1 hs2 hcm hcv hset
    obtain ⟨f1, e1, -, -, v1⟩ := AddHashes_spec hs1 b hm
    obtain ⟨f2, e2, -, -, v2⟩ := AddHashes_spec hs2 c (by rw [hcm]; exact hm)
    have ev : f1.value = f2.value := by
      rw [v1, v2, hcm, hcv]
      exact foldl_lor_of_same_set _ hs1 hs2 _ hset
    refine ⟨f1, f2, e1, e2, ev, ?_⟩
    unfold Bytes
    rw [ev]

/-- C20 at a concrete input: capacity 16, the hashes `05 00 00 00` and `06`. -/
theorem AddHash_idempotent_commutative_witness :
    (New 16 none : BloomFilter Unit Unit).maxBits ≠ 0 ∧
    (∃ f1 f2 f : BloomFilter Unit Unit,
      AddHash (New 16 none) [0x05, 0x00, 0x00, 0x00] = some f1 ∧
      AddHash f1 [0x06] = some f ∧
      AddHash (New 16 none) [0x06] = some f2 ∧
      AddHash f2 [0x05, 0x00, 0x00, 0x00] = some f) ∧
    (∃ f : BloomFilter Unit Unit,
      AddHash (New 16 none) [0x05, 0x00, 0x00, 0x00] = some f ∧
      AddHash f [0x05, 0x00, 0x00, 0x00] = some f) ∧
    (∀ (c : BloomFilter Unit Unit) (hs1 hs2 : List (List Byte)),
      c.maxBits = (New 16 none : BloomFilter Unit Unit).maxBits →
      c.value = (New 16 none : BloomFilter Unit Unit).value →
      (∀ x, x ∈ hs1 ↔ x ∈ hs2) →
        ∃ f1 f2 : BloomFilter Unit Unit,
          AddHashes (New 16 none) hs1 = some f1 ∧ AddHashes c hs2 = some f2 ∧
            f1.value = f2.value ∧ Bytes f1 = Bytes f2) :=
  ⟨by decide,
    AddHash_idempotent_commutative (New 16 none) (by decide) [0x05, 0x00, 0x00, 0x00] [0x06]⟩

end Gbloom
